import Mathlib

/-!
Verification of the identifier-stabilization, script-assembly, hashing and
defaults-resolution logic of `streamlit_folium/__init__.py`.

The Python module walks a tree of folium drawing objects, assigns each node a
deterministic identifier derived from its position in the tree, records a
mapping from the old (random) identifiers to the new stable ones, concatenates
the per-node script snippets, and finally performs a global textual
substitution of old identifiers by new ones.  A separate function normalizes
the resulting script and hashes it together with a caller key, and the
`st_folium` wrapper resolves default interaction values (bounds fallback,
key filtering).

The embedding below models:
  - Python `str.replace` as `replaceAllL` on `List Char` (leftmost,
    non-overlapping, no rescanning of the replacement text);
  - the two `re.sub` normalizations of `generate_js_hash` as the scanners
    `psub` (pattern `_[a-z0-9]+`) and `urlsub` (pattern `maps/[-a-z0-9]+/`);
  - the folium object tree as `Node` (ordinary elements with ordered children
    and a render capability, plus the `DualMap` composite), Python exceptions
    as `PyErr`, the mutable `mappings` dict as threaded association-list
    state, and `_generate_leaflet_string` / `generate_leaflet_string` as the
    functions of the same names;
  - the bounds fallback and defaults filtering of `st_folium`.
-/

/-! ## Python string replacement (`str.replace`) on `List Char` -/

/-- Leftmost occurrence splitter: `splitFirst k s = some (p, rest)` when
`s = p ++ k ++ rest` and `p` is the shortest such prefix; `none` when `k`
does not occur in `s`.  (For `k = []` it reports a match at every position,
mirroring the fact that the empty pattern is everywhere; `replaceAllL`
guards against the empty pattern separately.) -/
def splitFirst (k : List Char) : List Char → Option (List Char × List Char)
  | [] => none
  | c :: cs =>
    if k.isPrefixOf (c :: cs) then some ([], List.drop k.length (c :: cs))
    else (splitFirst k cs).map (fun pr => (c :: pr.1, pr.2))

theorem splitFirst_cons_pos {k : List Char} {c : Char} {cs : List Char}
    (hp : k.isPrefixOf (c :: cs)) :
    splitFirst k (c :: cs) = some ([], List.drop k.length (c :: cs)) := by
  simp [splitFirst, hp]

theorem splitFirst_cons_neg {k : List Char} {c : Char} {cs : List Char}
    (hp : ¬ k.isPrefixOf (c :: cs)) :
    splitFirst k (c :: cs) = (splitFirst k cs).map (fun pr => (c :: pr.1, pr.2)) := by
  simp [splitFirst, hp]

theorem splitFirst_sound {k s p rest : List Char}
    (h : splitFirst k s = some (p, rest)) : s = p ++ k ++ rest := by
  induction s generalizing p rest with
  | nil => simp [splitFirst] at h
  | cons c cs ih =>
    by_cases hp : k.isPrefixOf (c :: cs)
    · rw [splitFirst_cons_pos hp] at h
      cases h
      have hpre : k <+: c :: cs := List.isPrefixOf_iff_prefix.mp hp
      obtain ⟨t, ht⟩ := hpre
      have hdrop : List.drop k.length (c :: cs) = t := by
        rw [← ht]; simp
      rw [hdrop, List.nil_append, ← ht]
    · rw [splitFirst_cons_neg hp, Option.map_eq_some'] at h
      obtain ⟨⟨p1, r1⟩, hsf, heq⟩ := h
      cases heq
      have := ih hsf
      simp [this]

theorem splitFirst_none {k s : List Char} (hk : k ≠ [])
    (h : splitFirst k s = none) : ¬ k <:+: s := by
  induction s with
  | nil =>
    intro hinf
    exact hk (List.eq_nil_of_infix_nil hinf)
  | cons c cs ih =>
    by_cases hp : k.isPrefixOf (c :: cs)
    · rw [splitFirst_cons_pos hp] at h
      cases h
    · rw [splitFirst_cons_neg hp, Option.map_eq_none'] at h
      intro hinf
      rcases List.infix_cons_iff.mp hinf with hpre | hinf'
      · exact hp (List.isPrefixOf_iff_prefix.mpr hpre)
      · exact ih h hinf'

theorem splitFirst_leftmost {k s p rest : List Char} (hk : k ≠ [])
    (h : splitFirst k s = some (p, rest)) : ¬ k <:+: p := by
  induction s generalizing p rest with
  | nil => simp [splitFirst] at h
  | cons c cs ih =>
    by_cases hp : k.isPrefixOf (c :: cs)
    · rw [splitFirst_cons_pos hp] at h
      cases h
      intro hinf
      exact hk (List.eq_nil_of_infix_nil hinf)
    · rw [splitFirst_cons_neg hp, Option.map_eq_some'] at h
      obtain ⟨⟨p1, r1⟩, hsf, heq⟩ := h
      cases heq
      intro hinf
      rcases List.infix_cons_iff.mp hinf with hpre | hinf'
      · have hs : c :: cs = (c :: p1) ++ k ++ r1 := by
          have := splitFirst_sound hsf
          simp [this]
        have hkp : k <+: c :: cs := by
          rcases hpre with ⟨t, ht⟩
          exact ⟨t ++ k ++ r1, by rw [hs, ← ht]; simp⟩
        exact hp (List.isPrefixOf_iff_prefix.mpr hkp)
      · exact ih hsf hinf'

theorem splitFirst_some_length {k s p rest : List Char} (hk : k ≠ [])
    (h : splitFirst k s = some (p, rest)) : rest.length < s.length := by
  have hs := splitFirst_sound h
  have hkl : 0 < k.length := List.length_pos.mpr hk
  rw [hs]
  simp only [List.length_append]
  omega

/-- Python `str.replace(k, v)` on character lists: repeatedly rewrite the
leftmost occurrence of `k` to `v` and continue after the inserted `v`
(the replacement text is not rescanned).  The empty pattern is returned
unchanged; the Python semantics for an empty pattern (inserting `v` between
all characters) never arises here because folium identifiers are nonempty. -/
def replaceAllL (k v : List Char) (s : List Char) : List Char :=
  if hk : k = [] then s
  else
    match hsf : splitFirst k s with
    | none => s
    | some (p, rest) => p ++ v ++ replaceAllL k v rest
termination_by s.length
decreasing_by exact splitFirst_some_length hk hsf

/-- Python `str.replace` lifted to `String`. -/
def strReplace (s k v : String) : String :=
  String.mk (replaceAllL k.data v.data s.data)

theorem replaceAllL_nil_pat (v s : List Char) : replaceAllL [] v s = s := by
  rw [replaceAllL]
  simp

theorem replaceAllL_of_none {k v s : List Char} (h : splitFirst k s = none) :
    replaceAllL k v s = s := by
  rw [replaceAllL]
  split
  · rfl
  · split
    · rfl
    · simp_all

theorem replaceAllL_of_some {k v s p rest : List Char} (hk : k ≠ [])
    (h : splitFirst k s = some (p, rest)) :
    replaceAllL k v s = p ++ v ++ replaceAllL k v rest := by
  rw [replaceAllL]
  split
  · exact absurd ‹k = []› hk
  · split <;> simp_all

theorem replaceAllL_no_occ {k v s : List Char} (hk : k ≠ [])
    (h : ¬ k <:+: s) : replaceAllL k v s = s := by
  match hsf : splitFirst k s with
  | none => exact replaceAllL_of_none hsf
  | some (p, rest) =>
    exact absurd (splitFirst_sound hsf ▸ ⟨p, rest, rfl⟩) h

/-! ## Occurrence bookkeeping: where can an infix of an append sit? -/

theorem prefix_append_cases {p x y : List Char} (h : p <+: x ++ y) :
    p <+: x ∨ ∃ q, p = x ++ q ∧ q <+: y := by
  induction x generalizing p with
  | nil =>
    right
    exact ⟨p, by simp, by simpa using h⟩
  | cons c xs ih =>
    match p with
    | [] => exact Or.inl List.nil_prefix
    | d :: p' =>
      rw [List.cons_append, List.cons_prefix_cons] at h
      obtain ⟨hd, hp'⟩ := h
      subst hd
      rcases ih hp' with h1 | ⟨q, hq1, hq2⟩
      · exact Or.inl (List.cons_prefix_cons.mpr ⟨rfl, h1⟩)
      · exact Or.inr ⟨q, by simp [hq1], hq2⟩

theorem suffix_append_cases {t x y : List Char} (h : t <:+ x ++ y) :
    t <:+ y ∨ ∃ s, t = s ++ y ∧ s <:+ x := by
  rw [← List.reverse_prefix] at h
  rw [List.reverse_append] at h
  rcases prefix_append_cases h with h1 | ⟨q, hq1, hq2⟩
  · left
    rwa [List.reverse_prefix] at h1
  · right
    refine ⟨q.reverse, ?_, ?_⟩
    · have := congrArg List.reverse hq1
      simpa using this
    · rw [← List.reverse_prefix]
      simpa using hq2

theorem infix_append_cases {t x y : List Char} (h : t <:+: x ++ y) :
    t <:+: x ∨ t <:+: y ∨
      ∃ t1 t2, t = t1 ++ t2 ∧ t1 ≠ [] ∧ t2 ≠ [] ∧ t1 <:+ x ∧ t2 <+: y := by
  induction x generalizing t with
  | nil =>
    right; left
    simpa using h
  | cons c xs ih =>
    rw [List.cons_append, List.infix_cons_iff] at h
    rcases h with hpre | hinf
    · match t with
      | [] => exact Or.inl List.nil_infix
      | d :: t' =>
        rw [List.cons_prefix_cons] at hpre
        obtain ⟨hd, hp'⟩ := hpre
        subst hd
        rcases prefix_append_cases hp' with h1 | ⟨q, hq1, hq2⟩
        · exact Or.inl ((List.cons_prefix_cons.mpr ⟨rfl, h1⟩).isInfix)
        · by_cases hq : q = []
          · subst hq
            left
            rw [List.append_nil] at hq1
            exact (List.cons_prefix_cons.mpr ⟨rfl, hq1.symm ▸ List.prefix_refl _⟩).isInfix
          · right; right
            exact ⟨d :: xs, q, by simp [hq1], by simp, hq, List.suffix_refl _, hq2⟩
    · rcases ih hinf with h1 | h2 | ⟨t1, t2, ht, h1, h2, h3, h4⟩
      · exact Or.inl (List.infix_cons h1)
      · exact Or.inr (Or.inl h2)
      · exact Or.inr (Or.inr ⟨t1, t2, ht, h1, h2, h3.trans (List.suffix_cons _ _), h4⟩)

/-- Textual non-interference of an occurrence target `t` with a replacement
text `v`: `t` is not inside `v`, does not contain `v`, and no nonempty
proper splitting of `t` has its left part a suffix of `v` or its right part
a prefix of `v`.  When this holds, inserting copies of `v` into a text can
never create a new occurrence of `t` that touches one of the copies. -/
def NonInterfering (v t : List Char) : Prop :=
  (¬ t <:+: v) ∧ (¬ v <:+: t) ∧
    ∀ n, n < t.length → 0 < n →
      ¬ (List.drop n t <+: v) ∧ ¬ (List.take n t <:+ v)

instance (v t : List Char) : Decidable (NonInterfering v t) := by
  unfold NonInterfering
  infer_instance

theorem noCross {v t l r : List Char} (hni : NonInterfering v t)
    (h : t <:+: l ++ v ++ r) : t <:+: l ∨ t <:+: r := by
  obtain ⟨hA, hB, hC⟩ := hni
  rcases infix_append_cases h with h1 | h2 | ⟨t1, t2, ht, h1, h2, h3, h4⟩
  · -- inside `l ++ v`
    rcases infix_append_cases h1 with g1 | g2 | ⟨a, b, hab, ha, hb, hc, hd⟩
    · exact Or.inl g1
    · exact absurd g2 hA
    · -- right part of `t` is a nonempty prefix of `v`
      exfalso
      have hn : a.length < t.length := by
        rw [hab]
        simp only [List.length_append]
        have := List.length_pos.mpr hb
        omega
      have h0 : 0 < a.length := List.length_pos.mpr ha
      have hdr : List.drop a.length t = b := by rw [hab]; simp
      exact (hC a.length hn h0).1 (by rw [hdr]; exact hd)
  · exact Or.inr h2
  · -- `t` straddles the boundary between `l ++ v` and `r`
    rcases suffix_append_cases h3 with g1 | ⟨s, hs1, hs2⟩
    · -- left part of `t` is a nonempty suffix of `v`
      exfalso
      have hn : t1.length < t.length := by
        rw [ht]
        simp only [List.length_append]
        have := List.length_pos.mpr h2
        omega
      have h0 : 0 < t1.length := List.length_pos.mpr h1
      have htk : List.take t1.length t = t1 := by rw [ht]; simp
      exact (hC t1.length hn h0).2 (by rw [htk]; exact g1)
    · -- `t` contains a full copy of `v`
      exfalso
      exact hB (by rw [ht, hs1]; exact ⟨s, t2, by simp⟩)

theorem replaceAllL_preserve {k v t : List Char} (hni : NonInterfering v t) :
    ∀ s, ¬ t <:+: s → ¬ t <:+: replaceAllL k v s := by
  intro s
  induction s using replaceAllL.induct k v with
  | case1 s hk =>
    subst hk
    intro hs
    rwa [replaceAllL_nil_pat]
  | case2 s hk hsf =>
    intro hs
    rwa [replaceAllL_of_none hsf]
  | case3 s hk p rest hsf ih =>
    intro hs
    rw [replaceAllL_of_some hk hsf]
    intro hocc
    have hsplit := splitFirst_sound hsf
    rcases noCross hni hocc with h1 | h2
    · exact hs (hsplit ▸ h1.trans ⟨[], k ++ rest, by simp⟩)
    · have hrest : ¬ t <:+: rest := fun hr =>
        hs (hsplit ▸ hr.trans ⟨p ++ k, [], by simp⟩)
      exact ih hrest h2

theorem replaceAllL_kills {k v : List Char} (hk : k ≠ [])
    (hni : NonInterfering v k) : ∀ s, ¬ k <:+: replaceAllL k v s := by
  intro s
  induction s using replaceAllL.induct k v with
  | case1 s hk' => exact absurd hk' hk
  | case2 s hk' hsf =>
    rw [replaceAllL_of_none hsf]
    exact splitFirst_none hk hsf
  | case3 s hk' p rest hsf ih =>
    rw [replaceAllL_of_some hk hsf]
    intro hocc
    rcases noCross hni hocc with h1 | h2
    · exact splitFirst_leftmost hk hsf h1
    · exact ih h2

/-! ## Replacement distributes over a separator the pattern cannot contain -/

theorem isPrefixOf_append_sep {k x y : List Char} (hnl : '\n' ∉ k) :
    k.isPrefixOf (x ++ '\n' :: y) = k.isPrefixOf x := by
  by_cases h : (k.isPrefixOf (x ++ '\n' :: y) : Bool) = true
  · have hkp : k <+: x ++ '\n' :: y := List.isPrefixOf_iff_prefix.mp h
    rcases prefix_append_cases hkp with h1 | ⟨q, hq1, hq2⟩
    · rw [h, eq_comm]
      exact List.isPrefixOf_iff_prefix.mpr h1
    · match q, hq2 with
      | [], _ =>
        rw [List.append_nil] at hq1
        rw [h, eq_comm]
        exact List.isPrefixOf_iff_prefix.mpr (hq1 ▸ List.prefix_refl x)
      | a :: q', hpq =>
        rw [List.cons_prefix_cons] at hpq
        exfalso
        apply hnl
        rw [hq1, ← hpq.1]
        exact List.mem_append_right x (List.mem_cons_self a q')
  · simp only [Bool.not_eq_true] at h
    rw [h, eq_comm, Bool.eq_false_iff]
    intro hx
    rw [← Bool.not_eq_true] at h
    apply h
    have hpx : k <+: x := List.isPrefixOf_iff_prefix.mp hx
    exact List.isPrefixOf_iff_prefix.mpr (hpx.trans (List.prefix_append x _))

theorem splitFirst_append_sep {k : List Char} (hk : k ≠ []) (hnl : '\n' ∉ k) :
    ∀ x y, splitFirst k (x ++ '\n' :: y) =
      match splitFirst k x with
      | some (p, rest) => some (p, rest ++ '\n' :: y)
      | none => (splitFirst k y).map (fun pr => (x ++ '\n' :: pr.1, pr.2)) := by
  intro x y
  induction x with
  | nil =>
    have hnp : ¬ k.isPrefixOf ('\n' :: y) := by
      intro hp
      match k, hk with
      | c :: k', _ =>
        rw [List.isPrefixOf_iff_prefix, List.cons_prefix_cons] at hp
        exact hnl (hp.1 ▸ List.mem_cons_self c k')
    rw [List.nil_append, splitFirst_cons_neg hnp]
    rfl
  | cons c cs ih =>
    have heq := isPrefixOf_append_sep (k := k) (x := c :: cs) (y := y) hnl
    by_cases hp : k.isPrefixOf (c :: cs)
    · have hp2 : k.isPrefixOf ((c :: cs) ++ '\n' :: y) := by rw [heq]; exact hp
      rw [List.cons_append] at hp2
      rw [List.cons_append, splitFirst_cons_pos hp2, splitFirst_cons_pos hp]
      have hlen : k.length ≤ (c :: cs).length :=
        (List.isPrefixOf_iff_prefix.mp hp).length_le
      simp only [Option.some.injEq, Prod.mk.injEq, true_and]
      rw [← List.cons_append, List.drop_append_of_le_length hlen]
    · have hp2 : ¬ k.isPrefixOf ((c :: cs) ++ '\n' :: y) := by
        rw [heq]; exact hp
      rw [List.cons_append] at hp2
      rw [List.cons_append, splitFirst_cons_neg hp2, splitFirst_cons_neg hp, ih]
      cases hsf : splitFirst k cs with
      | none =>
        simp only [Option.map_map]
        cases hsf2 : splitFirst k y <;> simp [Function.comp]
      | some pr =>
        simp

theorem replaceAllL_append_sep {k v : List Char} (hk : k ≠ []) (hnl : '\n' ∉ k) :
    ∀ x y, replaceAllL k v (x ++ '\n' :: y) =
      replaceAllL k v x ++ '\n' :: replaceAllL k v y := by
  intro x
  induction x using replaceAllL.induct k v with
  | case1 s hk' => exact absurd hk' hk
  | case2 s hk' hsf =>
    intro y
    rw [replaceAllL_of_none hsf]
    cases hsf2 : splitFirst k y with
    | none =>
      rw [replaceAllL_of_none hsf2]
      apply replaceAllL_of_none
      rw [splitFirst_append_sep hk hnl, hsf, hsf2]
      rfl
    | some pr =>
      obtain ⟨q, rest⟩ := pr
      have hw : splitFirst k (s ++ '\n' :: y) = some (s ++ '\n' :: q, rest) := by
        rw [splitFirst_append_sep hk hnl, hsf, hsf2]
        rfl
      rw [replaceAllL_of_some hk hw, replaceAllL_of_some hk hsf2]
      simp
  | case3 s hk' p rest hsf ih =>
    intro y
    have hw : splitFirst k (s ++ '\n' :: y) = some (p, rest ++ '\n' :: y) := by
      rw [splitFirst_append_sep hk hnl, hsf]
    rw [replaceAllL_of_some hk hw, replaceAllL_of_some hk hsf, ih]
    simp

/-! ## The two `re.sub` normalizations of `generate_js_hash` -/

/-- Character class `[a-z0-9]` of the identifier-suffix pattern. -/
def isIdChar (c : Char) : Bool := ('a' ≤ c && c ≤ 'z') || ('0' ≤ c && c ≤ '9')

/-- Character class `[-a-z0-9]` of the Google-Earth-Engine tile pattern. -/
def isUrlChar (c : Char) : Bool := c = '-' || isIdChar c

/-- Scanner for `re.sub(r"(_[a-z0-9]+)", "", s)`: at each position, an
underscore followed by a nonempty maximal run of `[a-z0-9]` is deleted
together with the run; every other character is copied.  This matches the
left-to-right, non-overlapping, greedy behaviour of `re.sub`. -/
def psub : List Char → List Char
  | [] => []
  | c :: cs =>
    if c = '_' ∧ cs.takeWhile isIdChar ≠ [] then psub (cs.dropWhile isIdChar)
    else c :: psub cs
termination_by s => s.length
decreasing_by
  · have := (List.dropWhile_suffix (p := isIdChar) (l := cs)).length_le
    simp only [List.length_cons]
    omega
  · simp

/-- The literal `maps/` of the Google-Earth-Engine tile pattern. -/
def mapsLit : List Char := ['m', 'a', 'p', 's', '/']

/-- Match attempt for `maps/[-a-z0-9]+/` at the head of `s`; on success
returns the text following the match.  Greedy matching with backtracking is
equivalent to taking the maximal `[-a-z0-9]` run and then requiring `/`,
because `/` is not in the run's character class. -/
def urlMatchRest (s : List Char) : Option (List Char) :=
  if mapsLit.isPrefixOf s then
    match (List.drop 5 s).dropWhile isUrlChar with
    | '/' :: rest =>
      if (List.drop 5 s).takeWhile isUrlChar ≠ [] then some rest else none
    | _ => none
  else none

theorem urlMatchRest_length {s rest : List Char} (h : urlMatchRest s = some rest) :
    rest.length + 7 ≤ s.length := by
  unfold urlMatchRest at h
  split at h
  · rename_i hp
    split at h
    · rename_i heq
      split at h
      · rename_i hrun
        have hrest : rest = _ := (Option.some.injEq _ _ ▸ h).symm
        have h5 : 5 ≤ s.length := by
          have := (List.isPrefixOf_iff_prefix.mp hp).length_le
          simpa [mapsLit] using this
        have hsplit := List.takeWhile_append_dropWhile (p := isUrlChar)
          (l := List.drop 5 s)
        have hlen : (List.drop 5 s).length =
            ((List.drop 5 s).takeWhile isUrlChar).length + 1 + rest.length := by
          conv_lhs => rw [← hsplit]
          rw [heq, hrest]
          simp only [List.length_append, List.length_cons]
          omega
        have hrunpos : 0 < ((List.drop 5 s).takeWhile isUrlChar).length :=
          List.length_pos.mpr hrun
        have hdrop : (List.drop 5 s).length = s.length - 5 := by simp
        omega
      · exact absurd h (by simp)
    · exact absurd h (by simp)
  · exact absurd h (by simp)

/-- Scanner for `re.sub(r"(maps\/[-a-z0-9]+\/)", "", s)`. -/
def urlsub : List Char → List Char
  | [] => []
  | c :: cs =>
    match h : urlMatchRest (c :: cs) with
    | some rest => urlsub rest
    | none => c :: urlsub cs
termination_by s => s.length
decreasing_by
  · have := urlMatchRest_length h
    simp only [List.length_cons] at *
    omega
  · simp

/-! ## takeWhile / dropWhile over appends -/

theorem takeWhile_append_stop {P : Char → Bool} {a : Char} (l m : List Char)
    (hl : l.all P) (ha : ¬ P a) : (l ++ a :: m).takeWhile P = l := by
  induction l with
  | nil => simp [List.takeWhile_cons, ha]
  | cons c l' ih =>
    simp only [List.all_cons, Bool.and_eq_true] at hl
    simp [List.takeWhile_cons, hl.1, ih hl.2]

theorem dropWhile_append_stop {P : Char → Bool} {a : Char} (l m : List Char)
    (hl : l.all P) (ha : ¬ P a) : (l ++ a :: m).dropWhile P = a :: m := by
  induction l with
  | nil => simp [List.dropWhile_cons, ha]
  | cons c l' ih =>
    simp only [List.all_cons, Bool.and_eq_true] at hl
    simp [List.dropWhile_cons, hl.1, ih hl.2]

theorem takeWhile_append_not_all {P : Char → Bool} {l : List Char} (m : List Char)
    (hl : ¬ l.all P) : (l ++ m).takeWhile P = l.takeWhile P := by
  induction l with
  | nil => simp at hl
  | cons c l' ih =>
    by_cases hc : P c
    · simp only [List.all_cons, hc, Bool.true_and] at hl
      simp [List.takeWhile_cons, hc, ih hl]
    · simp [List.takeWhile_cons, hc]

theorem dropWhile_append_not_all {P : Char → Bool} {l : List Char} (m : List Char)
    (hl : ¬ l.all P) : (l ++ m).dropWhile P = l.dropWhile P ++ m := by
  induction l with
  | nil => simp at hl
  | cons c l' ih =>
    by_cases hc : P c
    · simp only [List.all_cons, hc, Bool.true_and] at hl
      simp [List.dropWhile_cons, hc, ih hl]
    · simp [List.dropWhile_cons, hc]

/-! ## Congruence of `psub` in the inserted identifier run -/

theorem psub_nil : psub [] = [] := by rw [psub]

theorem psub_cons_pos {c : Char} {cs : List Char}
    (h : c = '_' ∧ cs.takeWhile isIdChar ≠ []) :
    psub (c :: cs) = psub (cs.dropWhile isIdChar) := by
  rw [psub, if_pos h]

theorem psub_cons_neg {c : Char} {cs : List Char}
    (h : ¬ (c = '_' ∧ cs.takeWhile isIdChar ≠ [])) :
    psub (c :: cs) = c :: psub cs := by
  rw [psub, if_neg h]

theorem dropWhile_all_append {P : Char → Bool} {r : List Char} (rest : List Char)
    (hra : r.all P) : (r ++ rest).dropWhile P = rest.dropWhile P := by
  induction r with
  | nil => simp
  | cons c r' ih =>
    simp only [List.all_cons, Bool.and_eq_true] at hra
    simp only [List.cons_append, List.dropWhile_cons, hra.1, if_pos]
    exact ih hra.2

theorem psub_strip_run {r rest : List Char} (hr : r ≠ []) (hra : r.all isIdChar) :
    psub ('_' :: (r ++ rest)) = psub ((r ++ rest).dropWhile isIdChar) := by
  have htw : (r ++ rest).takeWhile isIdChar ≠ [] := by
    match r, hr with
    | c :: r', _ =>
      have hc : isIdChar c := by
        simp only [List.all_cons, Bool.and_eq_true] at hra
        exact hra.1
      simp [List.takeWhile_cons, hc]
  rw [psub_cons_pos ⟨rfl, htw⟩]

theorem psub_strip_run_eq {r rest : List Char} (hr : r ≠ []) (hra : r.all isIdChar) :
    psub ('_' :: (r ++ rest)) = psub (rest.dropWhile isIdChar) := by
  rw [psub_strip_run hr hra, dropWhile_all_append rest hra]

/-- Stripping behaviour of the scanner inside a shared left context is not
affected by which valid run follows an inserted underscore: `psub` deletes
the run together with any identifier characters that follow it, so the run
text itself never survives into the output. -/
theorem psub_congr {r r' : List Char} (hr : r ≠ []) (hr' : r' ≠ [])
    (hra : r.all isIdChar) (hra' : r'.all isIdChar) :
    ∀ (n : ℕ) (p rest : List Char), p.length ≤ n →
      psub (p ++ '_' :: (r ++ rest)) = psub (p ++ '_' :: (r' ++ rest)) := by
  intro n
  induction n with
  | zero =>
    intro p rest hp
    have hpnil : p = [] := List.length_eq_zero.mp (Nat.le_zero.mp hp)
    subst hpnil
    simp only [List.nil_append]
    rw [psub_strip_run_eq hr hra, psub_strip_run_eq hr' hra']
  | succ n ih =>
    intro p rest hp
    match p with
    | [] =>
      simp only [List.nil_append]
      rw [psub_strip_run_eq hr hra, psub_strip_run_eq hr' hra']
    | c :: p' =>
      simp only [List.cons_append]
      have htw : (p' ++ '_' :: (r ++ rest)).takeWhile isIdChar =
          (p' ++ '_' :: (r' ++ rest)).takeWhile isIdChar := by
        by_cases hall : p'.all isIdChar
        · rw [takeWhile_append_stop _ _ hall (by simp [isIdChar]),
            takeWhile_append_stop _ _ hall (by simp [isIdChar])]
        · rw [takeWhile_append_not_all _ hall, takeWhile_append_not_all _ hall]
      by_cases hcond : c = '_' ∧ (p' ++ '_' :: (r ++ rest)).takeWhile isIdChar ≠ []
      · have hcond' : c = '_' ∧ (p' ++ '_' :: (r' ++ rest)).takeWhile isIdChar ≠ [] := by
          rw [← htw]; exact hcond
        rw [psub_cons_pos hcond, psub_cons_pos hcond']
        have hdw : ∀ X : List Char,
            (p' ++ '_' :: X).dropWhile isIdChar = p'.dropWhile isIdChar ++ '_' :: X := by
          intro X
          by_cases hall : p'.all isIdChar
          · rw [dropWhile_append_stop _ _ hall (by simp [isIdChar])]
            have : p'.dropWhile isIdChar = [] := by
              rw [List.dropWhile_eq_nil_iff]
              intro x hx
              exact List.all_eq_true.mp hall x hx
            rw [this, List.nil_append]
          · rw [dropWhile_append_not_all _ hall]
        rw [hdw, hdw]
        apply ih
        have := (List.dropWhile_suffix (p := isIdChar) (l := p')).length_le
        simp only [List.length_cons] at hp
        omega
      · have hcond' : ¬ (c = '_' ∧ (p' ++ '_' :: (r' ++ rest)).takeWhile isIdChar ≠ []) := by
          rw [← htw]; exact hcond
        rw [psub_cons_neg hcond, psub_cons_neg hcond']
        congr 1
        apply ih
        simp only [List.length_cons] at hp
        omega

/-- The context left of an inserted Google-Earth-Engine segment must not end
with an underscore followed only by identifier characters, otherwise the
identifier-suffix pass would strip into the `maps/` literal. -/
def NoStripTail (p : List Char) : Prop :=
  ∀ u b, p = u ++ '_' :: b → ¬ (b.all isIdChar = true)

def noStripTailB (p : List Char) : Bool :=
  p.tails.all fun t =>
    if t.head? = some '_' then !(t.tail.all isIdChar) else true

theorem noStripTail_iff (p : List Char) :
    NoStripTail p ↔ noStripTailB p = true := by
  unfold noStripTailB
  rw [List.all_eq_true]
  constructor
  · intro h t ht
    match t with
    | [] => simp
    | c :: b =>
      rw [List.mem_tails] at ht
      obtain ⟨u, hu⟩ := ht
      by_cases hc : c = '_'
      · subst hc
        have := h u b hu.symm
        simp only [List.head?_cons, Option.some.injEq, if_pos rfl, List.tail_cons]
        simpa using this
      · simp [List.head?_cons, hc]
  · intro h u b hp
    have hsfx : ('_' :: b) ∈ p.tails := by
      rw [List.mem_tails]
      exact ⟨u, hp.symm⟩
    have := h _ hsfx
    simpa using this

instance (p : List Char) : Decidable (NoStripTail p) :=
  decidable_of_iff _ (noStripTail_iff p).symm

theorem noStripTail_of_suffix {s p : List Char} (hs : s <:+ p)
    (h : NoStripTail p) : NoStripTail s := by
  intro u b hsb
  obtain ⟨w, hw⟩ := hs
  exact h (w ++ u) b (by rw [← hw, hsb]; simp)

theorem psub_append_safe {x : List Char} (hno : NoStripTail x) :
    ∀ y, psub (x ++ y) = psub x ++ psub y := by
  have main : ∀ (n : ℕ) (x : List Char), x.length ≤ n → NoStripTail x →
      ∀ y, psub (x ++ y) = psub x ++ psub y := by
    intro n
    induction n with
    | zero =>
      intro x hx _ y
      have : x = [] := List.length_eq_zero.mp (Nat.le_zero.mp hx)
      subst this
      simp [psub_nil]
    | succ n ih =>
      intro x hx hno y
      match x with
      | [] => simp [psub_nil]
      | c :: x' =>
        have hx' : x'.length ≤ n := by
          simp only [List.length_cons] at hx
          omega
        have hno' : NoStripTail x' := noStripTail_of_suffix (List.suffix_cons c x') hno
        by_cases hc : c = '_'
        · subst hc
          have hnall : ¬ x'.all isIdChar := hno [] x' rfl
          have htw : (x' ++ y).takeWhile isIdChar = x'.takeWhile isIdChar :=
            takeWhile_append_not_all _ hnall
          have hdw : (x' ++ y).dropWhile isIdChar = x'.dropWhile isIdChar ++ y :=
            dropWhile_append_not_all _ hnall
          by_cases hrun : x'.takeWhile isIdChar ≠ []
          · rw [List.cons_append, psub_cons_pos ⟨rfl, by rw [htw]; exact hrun⟩,
              psub_cons_pos ⟨rfl, hrun⟩, hdw]
            have hlen : (x'.dropWhile isIdChar).length ≤ n := by
              have := (List.dropWhile_suffix (p := isIdChar) (l := x')).length_le
              omega
            exact ih _ hlen
              (noStripTail_of_suffix (List.dropWhile_suffix isIdChar) hno') y
          · rw [not_not] at hrun
            rw [List.cons_append,
              psub_cons_neg (by rw [htw]; simp [hrun]),
              psub_cons_neg (by simp [hrun]), List.cons_append]
            rw [ih _ hx' hno' y]
        · rw [List.cons_append, psub_cons_neg (by simp [hc]),
            psub_cons_neg (by simp [hc]), List.cons_append]
          rw [ih _ hx' hno' y]
  exact main x.length x le_rfl hno

theorem psub_no_underscore {g : List Char} (hg : ∀ c ∈ g, c ≠ '_') :
    ∀ t, psub (g ++ t) = g ++ psub t := by
  induction g with
  | nil => simp
  | cons c g' ih =>
    intro t
    have hc : c ≠ '_' := hg c (List.mem_cons_self c g')
    rw [List.cons_append, psub_cons_neg (by simp [hc]), List.cons_append]
    rw [ih (fun d hd => hg d (List.mem_cons_of_mem c hd)) t]

/-! ## Congruence of `urlsub` in the inserted tile segment -/

/-- The context left of an inserted Google-Earth-Engine segment must not end
with the literal `maps/` followed only by `[-a-z0-9]` characters, otherwise
the URL pass would consume the context's open partial match together with
the start of the inserted segment and expose the random run. -/
def NoOpenUrl (X : List Char) : Prop :=
  ∀ u w, X = u ++ mapsLit ++ w → ¬ (w.all isUrlChar = true)

def noOpenUrlB (X : List Char) : Bool :=
  X.tails.all fun t =>
    if mapsLit.isPrefixOf t then !((t.drop 5).all isUrlChar) else true

theorem noOpenUrl_iff (X : List Char) : NoOpenUrl X ↔ noOpenUrlB X = true := by
  unfold noOpenUrlB
  rw [List.all_eq_true]
  constructor
  · intro h t ht
    rw [List.mem_tails] at ht
    obtain ⟨u, hu⟩ := ht
    by_cases hp : mapsLit.isPrefixOf t
    · obtain ⟨w, hw⟩ := List.isPrefixOf_iff_prefix.mp hp
      have hdrop : t.drop 5 = w := by rw [← hw]; simp [mapsLit]
      have := h u w (by rw [← hu, ← hw, List.append_assoc])
      simp only [hp, if_pos, hdrop]
      simpa using this
    · simp [hp]
  · intro h u w hp
    have hsfx : (mapsLit ++ w) ∈ X.tails := by
      rw [List.mem_tails]
      exact ⟨u, by rw [hp, List.append_assoc]⟩
    have := h _ hsfx
    have hpre : mapsLit.isPrefixOf (mapsLit ++ w) :=
      List.isPrefixOf_iff_prefix.mpr (List.prefix_append _ _)
    rw [if_pos hpre] at this
    have hdrop : (mapsLit ++ w).drop 5 = w := by simp [mapsLit]
    rw [hdrop] at this
    simpa using this

instance (X : List Char) : Decidable (NoOpenUrl X) :=
  decidable_of_iff _ (noOpenUrl_iff X).symm

theorem noOpenUrl_of_suffix {s X : List Char} (hs : s <:+ X)
    (h : NoOpenUrl X) : NoOpenUrl s := by
  intro u w hsw
  obtain ⟨v, hv⟩ := hs
  exact h (v ++ u) w (by rw [← hv, hsw]; simp)

theorem urlsub_nil : urlsub [] = [] := by rw [urlsub]

theorem urlsub_eq_some {s rest : List Char} (h : urlMatchRest s = some rest)
    (hs : s ≠ []) : urlsub s = urlsub rest := by
  match s, hs with
  | c :: cs, _ =>
    rw [urlsub]
    split
    · rename_i r' heq
      rw [heq] at h
      cases h
      rfl
    · rename_i heq
      rw [heq] at h
      cases h

theorem urlsub_cons_none {c : Char} {cs : List Char}
    (h : urlMatchRest (c :: cs) = none) : urlsub (c :: cs) = c :: urlsub cs := by
  rw [urlsub]
  split
  · rename_i r' heq
    rw [heq] at h
    cases h
  · rfl

theorem urlMatchRest_at_seg {r T : List Char} (hr : r ≠ []) (hra : r.all isUrlChar) :
    urlMatchRest (mapsLit ++ (r ++ '/' :: T)) = some T := by
  unfold urlMatchRest
  have hpre : mapsLit.isPrefixOf (mapsLit ++ (r ++ '/' :: T)) :=
    List.isPrefixOf_iff_prefix.mpr (List.prefix_append _ _)
  rw [if_pos hpre]
  have hdrop : (mapsLit ++ (r ++ '/' :: T)).drop 5 = r ++ '/' :: T := by
    simp [mapsLit]
  rw [hdrop]
  have hslash : ¬ isUrlChar '/' := by decide
  rw [dropWhile_append_stop _ _ hra hslash, takeWhile_append_stop _ _ hra hslash]
  simp [hr]

theorem urlMatchRest_short {X w : List Char} (hX : X ≠ []) (hlen : X.length < 5) :
    urlMatchRest (X ++ (mapsLit ++ w)) = none := by
  have hkey : ∀ n, n < 5 → 1 ≤ n →
      List.take (5 - n) mapsLit ≠ List.drop n mapsLit := by decide
  unfold urlMatchRest
  rw [if_neg]
  intro hp
  have hkp : mapsLit <+: X ++ (mapsLit ++ w) := List.isPrefixOf_iff_prefix.mp hp
  have htake : mapsLit = List.take 5 (X ++ (mapsLit ++ w)) := by
    have := List.prefix_iff_eq_take.mp hkp
    have h5 : mapsLit.length = 5 := rfl
    rw [← h5]
    exact this
  rw [List.take_append_eq_append_take, List.take_of_length_le (le_of_lt hlen)] at htake
  have htm : List.take (5 - X.length) (mapsLit ++ w) =
      List.take (5 - X.length) mapsLit := by
    rw [List.take_append_eq_append_take]
    have h5 : mapsLit.length = 5 := rfl
    have h0 : 5 - X.length - mapsLit.length = 0 := by omega
    rw [h0]
    simp
  rw [htm] at htake
  have hRest : List.take (5 - X.length) mapsLit = List.drop X.length mapsLit := by
    have hcg := congrArg (List.drop X.length) htake
    rw [List.drop_append_eq_append_drop, List.drop_length, Nat.sub_self] at hcg
    simpa using hcg.symm
  exact hkey X.length hlen (List.length_pos.mpr hX) hRest

theorem urlMatchRest_no_lit {X R : List Char} (hlen : 5 ≤ X.length)
    (hp : ¬ mapsLit.isPrefixOf X) : urlMatchRest (X ++ R) = none := by
  unfold urlMatchRest
  rw [if_neg]
  intro hpp
  apply hp
  have hkp : mapsLit <+: X ++ R := List.isPrefixOf_iff_prefix.mp hpp
  have htake := List.prefix_iff_eq_take.mp hkp
  rw [List.take_append_eq_append_take] at htake
  have h0 : mapsLit.length - X.length = 0 := by
    have h5 : mapsLit.length = 5 := rfl
    omega
  rw [h0] at htake
  simp only [List.take_zero, List.append_nil] at htake
  apply List.isPrefixOf_iff_prefix.mpr
  rw [List.prefix_iff_eq_take]
  exact htake

theorem urlMatchRest_open_hit {Z R : List Char} (hZ : ¬ Z.all isUrlChar)
    {Z₂ : List Char} (hD : Z.dropWhile isUrlChar = '/' :: Z₂)
    (hrun : Z.takeWhile isUrlChar ≠ []) :
    urlMatchRest ((mapsLit ++ Z) ++ R) = some (Z₂ ++ R) := by
  unfold urlMatchRest
  rw [List.append_assoc]
  have hpre : mapsLit.isPrefixOf (mapsLit ++ (Z ++ R)) :=
    List.isPrefixOf_iff_prefix.mpr (List.prefix_append _ _)
  rw [if_pos hpre]
  have hdrop : (mapsLit ++ (Z ++ R)).drop 5 = Z ++ R := by simp [mapsLit]
  rw [hdrop, dropWhile_append_not_all _ hZ, takeWhile_append_not_all _ hZ, hD]
  simp [hrun]

theorem urlMatchRest_open_miss {Z R : List Char} (hZ : ¬ Z.all isUrlChar)
    (hmiss : ∀ Z₂, Z.dropWhile isUrlChar = '/' :: Z₂ → Z.takeWhile isUrlChar = []) :
    urlMatchRest ((mapsLit ++ Z) ++ R) = none := by
  unfold urlMatchRest
  rw [List.append_assoc]
  have hpre : mapsLit.isPrefixOf (mapsLit ++ (Z ++ R)) :=
    List.isPrefixOf_iff_prefix.mpr (List.prefix_append _ _)
  rw [if_pos hpre]
  have hdrop : (mapsLit ++ (Z ++ R)).drop 5 = Z ++ R := by simp [mapsLit]
  rw [hdrop, dropWhile_append_not_all _ hZ, takeWhile_append_not_all _ hZ]
  cases hD : Z.dropWhile isUrlChar with
  | nil =>
    exfalso
    rw [List.dropWhile_eq_nil_iff] at hD
    exact hZ (List.all_eq_true.mpr hD)
  | cons d Z₂ =>
    by_cases hd : d = '/'
    · subst hd
      rw [hmiss Z₂ hD]
      simp
    · simp only [List.cons_append]
      split
      · rename_i rest heq
        exfalso
        apply hd
        exact List.head_eq_of_cons_eq heq
      · rfl

/-- Replacing one valid Google-Earth-Engine random run by another, after an
interference-free left context, does not change the output of the URL pass:
the pass deletes the whole `maps/<run>/` segment in both cases. -/
theorem urlsub_congr {r r' : List Char} (hr : r ≠ []) (hr' : r' ≠ [])
    (hra : r.all isUrlChar) (hra' : r'.all isUrlChar) :
    ∀ (n : ℕ) (X T : List Char), X.length ≤ n → NoOpenUrl X →
      urlsub (X ++ (mapsLit ++ (r ++ '/' :: T))) =
        urlsub (X ++ (mapsLit ++ (r' ++ '/' :: T))) := by
  intro n
  induction n with
  | zero =>
    intro X T hX hno
    have hXnil : X = [] := List.length_eq_zero.mp (Nat.le_zero.mp hX)
    subst hXnil
    simp only [List.nil_append]
    rw [urlsub_eq_some (urlMatchRest_at_seg hr hra) (by simp [mapsLit]),
      urlsub_eq_some (urlMatchRest_at_seg hr' hra') (by simp [mapsLit])]
  | succ n ih =>
    intro X T hX hno
    match X with
    | [] =>
      simp only [List.nil_append]
      rw [urlsub_eq_some (urlMatchRest_at_seg hr hra) (by simp [mapsLit]),
        urlsub_eq_some (urlMatchRest_at_seg hr' hra') (by simp [mapsLit])]
    | c :: X' =>
      have hX' : X'.length ≤ n := by
        simp only [List.length_cons] at hX
        omega
      have hnoX' : NoOpenUrl X' := noOpenUrl_of_suffix (List.suffix_cons c X') hno
      by_cases hshort : (c :: X').length < 5
      · have h1 := urlMatchRest_short (X := c :: X')
          (w := r ++ '/' :: T) (by simp) hshort
        have h2 := urlMatchRest_short (X := c :: X')
          (w := r' ++ '/' :: T) (by simp) hshort
        rw [List.cons_append] at h1 h2
        rw [List.cons_append, List.cons_append, urlsub_cons_none h1,
          urlsub_cons_none h2]
        congr 1
        exact ih X' T hX' hnoX'
      · push_neg at hshort
        by_cases hpre : mapsLit.isPrefixOf (c :: X')
        · obtain ⟨Z, hZeq⟩ := List.isPrefixOf_iff_prefix.mp hpre
          have hZnall : ¬ Z.all isUrlChar := by
            apply hno [] Z
            rw [← hZeq]
            simp
          have hZsfx : Z <:+ c :: X' := ⟨mapsLit, hZeq⟩
          have hZlen : mapsLit.length + Z.length = (c :: X').length := by
            rw [← hZeq]
            simp
          cases hD : Z.dropWhile isUrlChar with
          | nil =>
            exfalso
            rw [List.dropWhile_eq_nil_iff] at hD
            exact hZnall (List.all_eq_true.mpr hD)
          | cons d Z₂ =>
            by_cases hhit : d = '/' ∧ Z.takeWhile isUrlChar ≠ []
            · obtain ⟨hd, hrun⟩ := hhit
              subst hd
              have h1 := urlMatchRest_open_hit (R := mapsLit ++ (r ++ '/' :: T))
                hZnall hD hrun
              have h2 := urlMatchRest_open_hit (R := mapsLit ++ (r' ++ '/' :: T))
                hZnall hD hrun
              rw [hZeq] at h1 h2
              rw [urlsub_eq_some h1 (by simp), urlsub_eq_some h2 (by simp)]
              have hZ₂Z : Z₂ <:+ Z :=
                (List.suffix_cons '/' Z₂).trans
                  (hD ▸ List.dropWhile_suffix isUrlChar)
              have hZ₂sfx : Z₂ <:+ c :: X' := hZ₂Z.trans hZsfx
              have hZ₂len : Z₂.length ≤ n := by
                have hds : ('/' :: Z₂).length ≤ Z.length := by
                  rw [← hD]
                  exact (List.dropWhile_suffix _).length_le
                simp only [List.length_cons, mapsLit, List.length_nil] at hZlen hds hX ⊢
                omega
              exact ih Z₂ T hZ₂len (noOpenUrl_of_suffix hZ₂sfx hno)
            · have hmiss : ∀ Z₂', Z.dropWhile isUrlChar = '/' :: Z₂' →
                  Z.takeWhile isUrlChar = [] := by
                intro Z₂' hD'
                rw [hD] at hD'
                have hdeq := (List.cons.injEq _ _ _ _).mp hD'
                by_cases hd : d = '/'
                · rw [not_and_or] at hhit
                  rcases hhit with h | h
                  · exact absurd hd h
                  · rw [not_not] at h
                    exact h
                · exact absurd hdeq.1 hd
              have h1 := urlMatchRest_open_miss (R := mapsLit ++ (r ++ '/' :: T))
                hZnall hmiss
              have h2 := urlMatchRest_open_miss (R := mapsLit ++ (r' ++ '/' :: T))
                hZnall hmiss
              rw [hZeq, List.cons_append] at h1 h2
              rw [List.cons_append, List.cons_append, urlsub_cons_none h1,
                urlsub_cons_none h2]
              congr 1
              exact ih X' T hX' hnoX'
        · have h1 := urlMatchRest_no_lit (R := mapsLit ++ (r ++ '/' :: T))
            hshort hpre
          have h2 := urlMatchRest_no_lit (R := mapsLit ++ (r' ++ '/' :: T))
            hshort hpre
          rw [List.cons_append] at h1 h2
          rw [List.cons_append, List.cons_append, urlsub_cons_none h1,
            urlsub_cons_none h2]
          congr 1
          exact ih X' T hX' hnoX'

/-! ## The folium object tree and `_generate_leaflet_string` -/

/-- Python exception kinds distinguished by the module's handlers:
`jinja2.UndefinedError`, `AttributeError`, and everything else. -/
inductive PyErr where
  | undefinedError
  | attributeError
  | other (msg : String)
deriving DecidableEq

/-- A folium `MacroElement`: an ordinary element carries its random `_id`,
the `_template.module.script(m)` render capability, the
`_template.render(this=m, kwargs={})` fallback render, and the ordered
`_children` values; a `folium.plugins.DualMap` carries its two sub-maps and
its own `_template.module.script(m)` sync script.  Render capabilities are
functions of the element's current `_id` (they are invoked after the
mutation `m._id = base_id`) and may raise. -/
inductive Node where
  | elem (id : String) (script fallback : String → Except PyErr String)
      (children : List Node)
  | dual (id : String) (m1 m2 : Node) (sync : String → Except PyErr String)

/-- The `_id` attribute. -/
def Node._id : Node → String
  | .elem i _ _ _ => i
  | .dual i _ _ _ => i

/-- Python dict assignment `d[k] = v`: an existing key is updated in place
(keeping its position); a new key is appended. -/
def dictAssign (d : List (String × String)) (k v : String) :
    List (String × String) :=
  if d.any (fun p => p.1 == k) then
    d.map (fun p => if p.1 = k then (k, v) else p)
  else d ++ [(k, v)]

/-- The element self-render with the `UndefinedError` fallback
(lines 291-296): `m._template.module.script(m)`, falling back to
`m._template.render(this=m, kwargs={})` exactly when the former raises
`UndefinedError`. -/
def renderSelf (script fallback : String → Except PyErr String)
    (b : String) : Except PyErr String :=
  match script b with
  | .error .undefinedError => fallback b
  | r => r

mutual
/-- Model of `_generate_leaflet_string` (lines 265-312 of the source).  The
Python function mutates `m._id` and the shared `mappings` dict; here the
dict is threaded explicitly and returned even when an exception is raised,
mirroring the fact that a raising call has already performed its earlier
mutations.  The `Except` component carries the assembled script or the
raised exception. -/
def _generate_leaflet_string (m : Node) (nested : Bool) (base_id : String)
    (mappings : List (String × String)) :
    Except PyErr String × List (String × String) :=
  let mappings := dictAssign mappings m._id base_id
  match m with
  | .dual _ m1 m2 sync =>
    if nested = false then
      _generate_leaflet_string m1 false "0" mappings
    else
      match _generate_leaflet_string m1 true "0" mappings with
      | (.error e, mp) => (.error e, mp)
      | (.ok l1, mp1) =>
        match _generate_leaflet_string m2 true "0" mp1 with
        | (.error e, mp) => (.error e, mp)
        | (.ok l2, mp2) =>
          match sync base_id with
          | .error e => (.error e, mp2)
          | .ok syncS => (.ok (l1 ++ "\n" ++ l2 ++ syncS), mp2)
  | .elem _ script fallback children =>
    match renderSelf script fallback base_id with
    | .error e => (.error e, mappings)
    | .ok selfS =>
      if nested = false then (.ok selfS, mappings)
      else childLoop children 0 base_id selfS mappings

/-- The `for idx, child in enumerate(m._children.values())` loop of
`_generate_leaflet_string` (lines 301-310): a child raising
`UndefinedError` or `AttributeError` is skipped, leaving the accumulated
script untouched (the index still advances, as `enumerate` counts every
child); any other exception propagates immediately. -/
def childLoop (cs : List Node) (idx : Nat) (base_id : String) (acc : String)
    (mappings : List (String × String)) :
    Except PyErr String × List (String × String) :=
  match cs with
  | [] => (.ok acc, mappings)
  | c :: rest =>
    match _generate_leaflet_string c true (base_id ++ "_" ++ toString idx)
        mappings with
    | (.ok childS, mp) =>
      childLoop rest (idx + 1) base_id (acc ++ "\n" ++ childS) mp
    | (.error .undefinedError, mp) => childLoop rest (idx + 1) base_id acc mp
    | (.error .attributeError, mp) => childLoop rest (idx + 1) base_id acc mp
    | (.error e, mp) => (.error e, mp)
end

/-- The substitution pass of `generate_leaflet_string` (lines 330-331):
`for k, v in mappings.items(): leaflet = leaflet.replace(k, v)`. -/
def substPass (mappings : List (String × String)) (s : String) : String :=
  mappings.foldl (fun l kv => strReplace l kv.1 kv.2) s

/-- Model of `generate_leaflet_string` (lines 315-333): run the traversal
with a fresh mapping, then replace every recorded old identifier by its
stable identifier, in dict insertion order. -/
def generate_leaflet_string (m : Node) (nested : Bool := true)
    (base_id : String := "0") : Except PyErr String :=
  match _generate_leaflet_string m nested base_id [] with
  | (.error e, _) => .error e
  | (.ok leaflet, mappings) => .ok (substPass mappings leaflet)

/-! ## `generate_js_hash` -/

def psubS (s : String) : String := String.mk (psub s.data)

def urlsubS (s : String) : String := String.mk (urlsub s.data)

/-- Python `str(key)` for the `key: str = None` parameter: `None` prints
as the four-character string `None`. -/
def strOfKey : Option String → String
  | none => "None"
  | some s => s

/-- The normalized preimage hashed by `generate_js_hash` (lines 30-44):
strip identifier suffixes, append `str(key)`, strip Google-Earth-Engine
tile segments from the result, and append `str(key)` again. -/
def standardized_js (js_string : String) (key : Option String) : String :=
  urlsubS (psubS js_string ++ strOfKey key) ++ strOfKey key

/-- Model of `generate_js_hash`: `hashlib.sha256(...).hexdigest()` is an
external pure function of the preimage, abstracted as the parameter
`sha`; everything the module computes is the preimage. -/
def generate_js_hash (sha : String → String) (js_string : String)
    (key : Option String) : String :=
  sha (standardized_js js_string key)

/-! ## `st_folium`: bounds fallback and defaults filtering -/

structure LatLngV where
  lat : Option ℚ
  lng : Option ℚ
deriving DecidableEq

structure BoundsDictV where
  southWest : LatLngV
  northEast : LatLngV
deriving DecidableEq

/-- Model of the nested `bounds_to_dict` helper (lines 189-200): unpacking
`southwest, northeast = bounds_list` raises for a list whose length is not
two, and the indexings `[0]`/`[1]` raise for a corner with fewer than two
coordinates; both surface as non-recoverable exceptions. -/
def bounds_to_dict (bounds_list : List (List (Option ℚ))) :
    Except PyErr BoundsDictV :=
  match bounds_list with
  | [sw, ne] =>
    match sw, ne with
    | swlat :: swlng :: _, nelat :: nelng :: _ =>
      .ok ⟨⟨swlat, swlng⟩, ⟨nelat, nelng⟩⟩
    | _, _ => .error (.other "IndexError")
  | _ => .error (.other "ValueError")

/-- The `try: bounds = fig.get_bounds() except AttributeError` fallback of
`st_folium` (lines 202-205): only `AttributeError` is caught and replaced
by the null-corner pair; other exceptions propagate. -/
def resolveBounds (getBounds : Except PyErr (List (List (Option ℚ)))) :
    Except PyErr (List (List (Option ℚ))) :=
  match getBounds with
  | .error .attributeError => .ok [[none, none], [none, none]]
  | r => r

inductive JsVal where
  | null
  | boundsVal (b : BoundsDictV)
  | zoomVal (z : Option ℚ)
  | emptyDict
deriving DecidableEq

/-- The `_defaults` dict of `st_folium` (lines 207-216), parameterized by
the resolved bounds value and the zoom value. -/
def stDefaults (bv zv : JsVal) : List (String × JsVal) :=
  [("last_clicked", .null), ("last_object_clicked", .null),
   ("all_drawings", .null), ("last_active_drawing", .null),
   ("bounds", bv), ("zoom", zv),
   ("last_circle_radius", .null), ("last_circle_polygon", .null)]

/-- The filtering comprehension of `st_folium` (lines 220-224): keep a key
when `returned_objects is None or k in returned_objects`. -/
def stDefaultsFiltered (bv zv : JsVal)
    (returned_objects : Option (List String)) : List (String × JsVal) :=
  (stDefaults bv zv).filter fun kv =>
    match returned_objects with
    | none => true
    | some ro => ro.contains kv.1

/-! ## Specification mirrors of the traversal -/

def exOk : Except PyErr String → Bool
  | .ok _ => true
  | .error _ => false

def okOr : Except PyErr String → String
  | .ok s => s
  | .error _ => ""

mutual
/-- Pre-order list of `(old identifier, assigned stable identifier)` pairs
recorded by a traversal of `m` with the given base identifier. -/
def assignedIds (m : Node) (nested : Bool) (base_id : String) :
    List (String × String) :=
  match m with
  | .elem i _ _ cs =>
    (i, base_id) :: (if nested then assignedIdsChildren cs 0 base_id else [])
  | .dual i m1 m2 _ =>
    (i, base_id) ::
      (if nested then assignedIds m1 true "0" ++ assignedIds m2 true "0"
       else assignedIds m1 false "0")

def assignedIdsChildren (cs : List Node) (idx : Nat) (base_id : String) :
    List (String × String) :=
  match cs with
  | [] => []
  | c :: rest =>
    assignedIds c true (base_id ++ "_" ++ toString idx) ++
      assignedIdsChildren rest (idx + 1) base_id
end

mutual
/-- Every render along the traversal succeeds (after the `UndefinedError`
fallback for element self-renders). -/
def rendersOk (m : Node) (nested : Bool) (base_id : String) : Bool :=
  match m with
  | .elem _ script fallback cs =>
    exOk (renderSelf script fallback base_id) &&
      (!nested || rendersOkChildren cs 0 base_id)
  | .dual _ m1 m2 sync =>
    if nested then
      rendersOk m1 true "0" && rendersOk m2 true "0" && exOk (sync base_id)
    else rendersOk m1 false "0"

def rendersOkChildren (cs : List Node) (idx : Nat) (base_id : String) : Bool :=
  match cs with
  | [] => true
  | c :: rest =>
    rendersOk c true (base_id ++ "_" ++ toString idx) &&
      rendersOkChildren rest (idx + 1) base_id
end

mutual
/-- The script a fully successful traversal assembles, written so that the
concatenation order is explicit: an element's own snippet comes first,
followed by the children's scripts in insertion order, each preceded by a
newline; a nested dual composite concatenates the first sub-map's script, a
newline, the second sub-map's script, and finally its own sync snippet. -/
def specAssemble (m : Node) (nested : Bool) (base_id : String) : String :=
  match m with
  | .elem _ script fallback cs =>
    okOr (renderSelf script fallback base_id) ++
      (if nested then specChildren cs 0 base_id else "")
  | .dual _ m1 m2 sync =>
    if nested then
      specAssemble m1 true "0" ++ "\n" ++ specAssemble m2 true "0" ++
        okOr (sync base_id)
    else specAssemble m1 false "0"

def specChildren (cs : List Node) (idx : Nat) (base_id : String) : String :=
  match cs with
  | [] => ""
  | c :: rest =>
    "\n" ++ specAssemble c true (base_id ++ "_" ++ toString idx) ++
      specChildren rest (idx + 1) base_id
end

/-! ## Structural characterization of a fully successful traversal -/

theorem exOk_iff {e : Except PyErr String} : exOk e = true ↔ ∃ s, e = .ok s := by
  cases e <;> simp [exOk]

theorem nodup_mid {α : Type} {l1 l2 : List α} {a : α}
    (h : (l1 ++ a :: l2).Nodup) : a ∉ l1 := by
  rw [List.nodup_append] at h
  intro ha
  exact h.2.2 ha (List.mem_cons_self a l2)

theorem dictAssign_fresh {d : List (String × String)} {k v : String}
    (h : k ∉ d.map Prod.fst) : dictAssign d k v = d ++ [(k, v)] := by
  unfold dictAssign
  rw [if_neg]
  intro hany
  rw [List.any_eq_true] at hany
  obtain ⟨p, hp, hpk⟩ := hany
  rw [beq_iff_eq] at hpk
  exact h (hpk ▸ List.mem_map_of_mem Prod.fst hp)

theorem gen_elem_eq (i : String) (sc fb : String → Except PyErr String)
    (cs : List Node) (nested : Bool) (b : String)
    (mp : List (String × String)) :
    _generate_leaflet_string (.elem i sc fb cs) nested b mp =
      (match renderSelf sc fb b with
        | .error e => (.error e, dictAssign mp i b)
        | .ok selfS =>
          if nested = false then (.ok selfS, dictAssign mp i b)
          else childLoop cs 0 b selfS (dictAssign mp i b)) := by
  rw [_generate_leaflet_string]
  rfl

theorem gen_dual_eq (i : String) (m1 m2 : Node)
    (sync : String → Except PyErr String) (nested : Bool) (b : String)
    (mp : List (String × String)) :
    _generate_leaflet_string (.dual i m1 m2 sync) nested b mp =
      (if nested = false then
        _generate_leaflet_string m1 false "0" (dictAssign mp i b)
      else
        match _generate_leaflet_string m1 true "0" (dictAssign mp i b) with
        | (.error e, mp') => (.error e, mp')
        | (.ok l1, mp1) =>
          match _generate_leaflet_string m2 true "0" mp1 with
          | (.error e, mp') => (.error e, mp')
          | (.ok l2, mp2) =>
            match sync b with
            | .error e => (.error e, mp2)
            | .ok syncS => (.ok (l1 ++ "\n" ++ l2 ++ syncS), mp2)) := by
  rw [_generate_leaflet_string]
  rfl

theorem childLoop_nil_eq (idx : Nat) (b acc : String)
    (mp : List (String × String)) :
    childLoop [] idx b acc mp = (.ok acc, mp) := by
  rw [childLoop]

theorem childLoop_cons_eq (c : Node) (rest : List Node) (idx : Nat)
    (b acc : String) (mp : List (String × String)) :
    childLoop (c :: rest) idx b acc mp =
      (match _generate_leaflet_string c true (b ++ "_" ++ toString idx) mp with
        | (.ok childS, mp') =>
          childLoop rest (idx + 1) b (acc ++ "\n" ++ childS) mp'
        | (.error .undefinedError, mp') => childLoop rest (idx + 1) b acc mp'
        | (.error .attributeError, mp') => childLoop rest (idx + 1) b acc mp'
        | (.error e, mp') => (.error e, mp')) := by
  rw [childLoop]

theorem gen_elem_ok {i : String} {sc fb : String → Except PyErr String}
    {cs : List Node} {nested : Bool} {b s : String}
    {mp : List (String × String)} (hs : renderSelf sc fb b = .ok s) :
    _generate_leaflet_string (.elem i sc fb cs) nested b mp =
      (if nested = false then (.ok s, dictAssign mp i b)
       else childLoop cs 0 b s (dictAssign mp i b)) := by
  rw [gen_elem_eq]
  simp [hs]

theorem gen_elem_err {i : String} {sc fb : String → Except PyErr String}
    {cs : List Node} {nested : Bool} {b : String} {e : PyErr}
    {mp : List (String × String)} (hs : renderSelf sc fb b = .error e) :
    _generate_leaflet_string (.elem i sc fb cs) nested b mp =
      (.error e, dictAssign mp i b) := by
  rw [gen_elem_eq]
  simp [hs]

theorem gen_dual_true_ok {i : String} {m1 m2 : Node}
    {sync : String → Except PyErr String} {b l1 l2 t : String}
    {mp mp1 mp2 : List (String × String)}
    (h1 : _generate_leaflet_string m1 true "0" (dictAssign mp i b) =
      (.ok l1, mp1))
    (h2 : _generate_leaflet_string m2 true "0" mp1 = (.ok l2, mp2))
    (ht : sync b = .ok t) :
    _generate_leaflet_string (.dual i m1 m2 sync) true b mp =
      (.ok (l1 ++ "\n" ++ l2 ++ t), mp2) := by
  rw [gen_dual_eq]
  simp [h1, h2, ht]

theorem childLoop_cons_ok {c : Node} {rest : List Node} {idx : Nat}
    {b acc childS : String} {mp mp' : List (String × String)}
    (h : _generate_leaflet_string c true (b ++ "_" ++ toString idx) mp =
      (.ok childS, mp')) :
    childLoop (c :: rest) idx b acc mp =
      childLoop rest (idx + 1) b (acc ++ "\n" ++ childS) mp' := by
  rw [childLoop_cons_eq]
  simp [h]

theorem childLoop_cons_skip {c : Node} {rest : List Node} {idx : Nat}
    {b acc : String} {e : PyErr} {mp mp' : List (String × String)}
    (h : _generate_leaflet_string c true (b ++ "_" ++ toString idx) mp =
      (.error e, mp'))
    (he : e = .undefinedError ∨ e = .attributeError) :
    childLoop (c :: rest) idx b acc mp = childLoop rest (idx + 1) b acc mp' := by
  rw [childLoop_cons_eq]
  rcases he with he | he <;> subst he <;> simp [h]

theorem childLoop_cons_fatal {c : Node} {rest : List Node} {idx : Nat}
    {b acc msg : String} {mp mp' : List (String × String)}
    (h : _generate_leaflet_string c true (b ++ "_" ++ toString idx) mp =
      (.error (.other msg), mp')) :
    childLoop (c :: rest) idx b acc mp = (.error (.other msg), mp') := by
  rw [childLoop_cons_eq]
  simp [h]

theorem nodup_append_left_of {X A B : List String}
    (h : (X ++ (A ++ B)).Nodup) : (X ++ A).Nodup :=
  List.Nodup.sublist (List.Sublist.append_left (List.sublist_append_left A B) X) h

/-- Joint characterization of a fully successful traversal: the assembled
script is `specAssemble` and the mapping grows by exactly the pre-order
`assignedIds` pairs, provided all identifiers involved are distinct. -/
theorem gen_ok_pair : ∀ n : ℕ,
    (∀ (m : Node) (nested : Bool) (b : String) (mp : List (String × String)),
      sizeOf m ≤ n → rendersOk m nested b = true →
      ((mp.map Prod.fst) ++ (assignedIds m nested b).map Prod.fst).Nodup →
      _generate_leaflet_string m nested b mp =
        (.ok (specAssemble m nested b), mp ++ assignedIds m nested b)) ∧
    (∀ (cs : List Node) (idx : Nat) (b acc : String)
        (mp : List (String × String)),
      sizeOf cs ≤ n → rendersOkChildren cs idx b = true →
      ((mp.map Prod.fst) ++ (assignedIdsChildren cs idx b).map Prod.fst).Nodup →
      childLoop cs idx b acc mp =
        (.ok (acc ++ specChildren cs idx b),
          mp ++ assignedIdsChildren cs idx b)) := by
  intro n
  induction n with
  | zero =>
    constructor
    · intro m _ _ _ hsz
      exact absurd hsz (by cases m <;> simp)
    · intro cs idx b acc mp hsz hok hnd
      match cs with
      | [] =>
        rw [childLoop_nil_eq]
        simp [specChildren, assignedIdsChildren]
      | c :: rest => exact absurd hsz (by cases c <;> simp)
  | succ n ih =>
    constructor
    · intro m nested b mp hsz hok hnd
      match m with
      | .elem i sc fb cs =>
        rw [rendersOk] at hok
        rw [Bool.and_eq_true] at hok
        obtain ⟨s, hs⟩ := exOk_iff.mp hok.1
        have hkeys : i ∉ mp.map Prod.fst := by
          have hnd' : ((mp.map Prod.fst) ++ i ::
              (if nested then assignedIdsChildren cs 0 b else []).map
                Prod.fst).Nodup := by
            simpa [assignedIds] using hnd
          exact nodup_mid hnd' 
        rw [gen_elem_ok hs, dictAssign_fresh hkeys]
        cases nested with
        | false =>
          simp [specAssemble, assignedIds, okOr, hs]
        | true =>
          simp only [Bool.true_eq_false, reduceIte]
          have hcs : sizeOf cs ≤ n := by
            have hlt : sizeOf cs < sizeOf (Node.elem i sc fb cs) := by
              simp only [Node.elem.sizeOf_spec]
              omega
            omega
          have hoknest : rendersOkChildren cs 0 b = true := by
            have := hok.2
            simpa using this
          have hndc : (((mp ++ [(i, b)]).map Prod.fst) ++
              (assignedIdsChildren cs 0 b).map Prod.fst).Nodup := by
            simp only [List.map_append, List.map_cons, List.map_nil,
              List.append_assoc, List.singleton_append]
            simpa [assignedIds] using hnd
          rw [ih.2 cs 0 b s (mp ++ [(i, b)]) hcs hoknest hndc]
          simp [specAssemble, assignedIds, okOr, hs]
      | .dual i m1 m2 sync =>
        rw [rendersOk] at hok
        have hm1 : sizeOf m1 ≤ n := by
          have hlt : sizeOf m1 < sizeOf (Node.dual i m1 m2 sync) := by
            simp only [Node.dual.sizeOf_spec]
            omega
          omega
        have hm2 : sizeOf m2 ≤ n := by
          have hlt : sizeOf m2 < sizeOf (Node.dual i m1 m2 sync) := by
            simp only [Node.dual.sizeOf_spec]
            omega
          omega
        cases nested with
        | false =>
          simp only [Bool.false_eq_true, reduceIte] at hok
          have hkeys : i ∉ mp.map Prod.fst := by
            have hnd' : ((mp.map Prod.fst) ++ i ::
                (assignedIds m1 false "0").map Prod.fst).Nodup := by
              simpa [assignedIds] using hnd
            exact nodup_mid hnd' 
          rw [gen_dual_eq, if_pos rfl, dictAssign_fresh hkeys]
          have hnd1 : (((mp ++ [(i, b)]).map Prod.fst) ++
              (assignedIds m1 false "0").map Prod.fst).Nodup := by
            simp only [List.map_append, List.map_cons, List.map_nil,
              List.append_assoc, List.singleton_append]
            simpa [assignedIds] using hnd
          rw [ih.1 m1 false "0" (mp ++ [(i, b)]) hm1 hok hnd1]
          simp [specAssemble, assignedIds]
        | true =>
          simp only [reduceIte, Bool.and_eq_true] at hok
          obtain ⟨⟨hok1, hok2⟩, hok3⟩ := hok
          obtain ⟨t, ht⟩ := exOk_iff.mp hok3
          have hkeys : i ∉ mp.map Prod.fst := by
            have hnd' : ((mp.map Prod.fst) ++ i ::
                ((assignedIds m1 true "0").map Prod.fst ++
                  (assignedIds m2 true "0").map Prod.fst)).Nodup := by
              simpa [assignedIds] using hnd
            exact nodup_mid hnd' 
          have hndfull : (mp.map Prod.fst ++ ([(i, b)].map Prod.fst ++
              ((assignedIds m1 true "0").map Prod.fst ++
                (assignedIds m2 true "0").map Prod.fst))).Nodup := by
            simpa [assignedIds] using hnd
          have hnd1 : (((mp ++ [(i, b)]).map Prod.fst) ++
              (assignedIds m1 true "0").map Prod.fst).Nodup := by
            simp only [List.map_append, List.append_assoc]
            exact nodup_append_left_of (by
              simpa [List.append_assoc] using hndfull)
          have h1 : _generate_leaflet_string m1 true "0" (dictAssign mp i b) =
              (.ok (specAssemble m1 true "0"),
                (mp ++ [(i, b)]) ++ assignedIds m1 true "0") := by
            rw [dictAssign_fresh hkeys]
            exact ih.1 m1 true "0" (mp ++ [(i, b)]) hm1 hok1 hnd1
          have hnd2 : ((((mp ++ [(i, b)]) ++ assignedIds m1 true "0").map
              Prod.fst) ++ (assignedIds m2 true "0").map Prod.fst).Nodup := by
            simp only [List.map_append, List.append_assoc]
            simpa [List.append_assoc] using hndfull
          have h2 := ih.1 m2 true "0" ((mp ++ [(i, b)]) ++ assignedIds m1 true "0")
            hm2 hok2 hnd2
          rw [gen_dual_true_ok h1 h2 ht]
          simp [specAssemble, assignedIds, okOr, ht]
    · intro cs idx b acc mp hsz hok hnd
      match cs with
      | [] =>
        rw [childLoop_nil_eq]
        simp [specChildren, assignedIdsChildren]
      | c :: rest =>
        rw [rendersOkChildren, Bool.and_eq_true] at hok
        have hc : sizeOf c ≤ n := by
          have hlt : sizeOf c < sizeOf (c :: rest) := by
            simp only [List.cons.sizeOf_spec]
            omega
          omega
        have hrest : sizeOf rest ≤ n := by
          have hlt : sizeOf rest < sizeOf (c :: rest) := by
            simp only [List.cons.sizeOf_spec]
            omega
          omega
        have hndc : ((mp.map Prod.fst) ++
            (assignedIds c true (b ++ "_" ++ toString idx)).map
              Prod.fst).Nodup := by
          exact nodup_append_left_of (by
            simpa [assignedIdsChildren] using hnd)
        have h1 := ih.1 c true (b ++ "_" ++ toString idx) mp hc hok.1 hndc
        rw [childLoop_cons_ok h1]
        have hndr : (((mp ++ assignedIds c true (b ++ "_" ++ toString idx)).map
            Prod.fst) ++ (assignedIdsChildren rest (idx + 1) b).map
              Prod.fst).Nodup := by
          simp only [List.map_append, List.append_assoc]
          simpa [assignedIdsChildren, List.append_assoc] using hnd
        rw [ih.2 rest (idx + 1) b
          (acc ++ "\n" ++ specAssemble c true (b ++ "_" ++ toString idx))
          (mp ++ assignedIds c true (b ++ "_" ++ toString idx)) hrest
          hok.2 hndr]
        simp only [specChildren, assignedIdsChildren, Prod.mk.injEq]
        constructor
        · simp [String.append_assoc]
        · rw [List.append_assoc]

theorem gen_ok_root {m : Node} {nested : Bool} {b : String}
    (hok : rendersOk m nested b = true)
    (hnd : ((assignedIds m nested b).map Prod.fst).Nodup) :
    _generate_leaflet_string m nested b [] =
      (.ok (specAssemble m nested b), assignedIds m nested b) := by
  have := (gen_ok_pair (sizeOf m)).1 m nested b [] le_rfl hok (by simpa using hnd)
  simpa using this

/-! ## Claim theorems -/

/-- C7: a node whose direct snippet rendering raises the templating
evaluation failure (`UndefinedError`) is rendered through the fallback
`m._template.render(this=m, kwargs={})` instead of propagating the failure:
the element behaves exactly as if its script capability were the raw
fallback render. -/
theorem C7_fallback_on_undefined {i : String}
    {sc fb : String → Except PyErr String} {cs : List Node} (nested : Bool)
    (b : String) (mp : List (String × String))
    (h : sc b = .error .undefinedError) :
    renderSelf sc fb b = fb b ∧
      _generate_leaflet_string (.elem i sc fb cs) nested b mp =
        _generate_leaflet_string (.elem i fb fb cs) nested b mp := by
  have hrs : renderSelf sc fb b = fb b := by
    unfold renderSelf
    rw [h]
  have hrs2 : renderSelf fb fb b = fb b := by
    unfold renderSelf
    cases hfb : fb b with
    | ok s => rfl
    | error e => cases e <;> simp
  refine ⟨hrs, ?_⟩
  rw [gen_elem_eq, gen_elem_eq, hrs, hrs2]

/-- Witness for C7 at a concrete popup-like element whose script raises
`UndefinedError` and whose raw template renders to a fixed snippet. -/
theorem C7_witness :
    renderSelf (fun _ => .error .undefinedError)
        (fun b => .ok ("popup " ++ b)) "map_div" =
      (fun b => (.ok ("popup " ++ b) : Except PyErr String)) "map_div" ∧
      _generate_leaflet_string
          (.elem "p123" (fun _ => .error .undefinedError)
            (fun b => .ok ("popup " ++ b)) []) true "map_div" [] =
        _generate_leaflet_string
          (.elem "p123" (fun b => .ok ("popup " ++ b))
            (fun b => .ok ("popup " ++ b)) []) true "map_div" [] :=
  C7_fallback_on_undefined true "map_div" [] rfl

/-- C8: a map object whose bounds-query capability raises `AttributeError`
gets the null-coordinate corner pair substituted, and the defaults mapping
carries exactly that bounds value under the key `bounds`. -/
theorem C8_bounds_fallback :
    resolveBounds (.error .attributeError) = .ok [[none, none], [none, none]] ∧
      bounds_to_dict [[none, none], [none, none]] =
        .ok ⟨⟨none, none⟩, ⟨none, none⟩⟩ ∧
      ∀ zv : JsVal,
        (stDefaults (.boundsVal ⟨⟨none, none⟩, ⟨none, none⟩⟩) zv).lookup
            "bounds" = some (.boundsVal ⟨⟨none, none⟩, ⟨none, none⟩⟩) := by
  refine ⟨rfl, rfl, ?_⟩
  intro zv
  simp [stDefaults, List.lookup]

/-- C9: with no filter every default key is emitted; with a filter exactly
the default keys belonging to the filter are emitted, in their original
order; in particular `returned_objects = ["zoom"]` leaves exactly the key
`zoom`. -/
theorem C9_defaults_filtering :
    ∀ bv zv : JsVal,
      stDefaultsFiltered bv zv none = stDefaults bv zv ∧
      (∀ ro k, k ∈ (stDefaultsFiltered bv zv (some ro)).map Prod.fst ↔
        (k ∈ (stDefaults bv zv).map Prod.fst ∧ k ∈ ro)) ∧
      (stDefaultsFiltered bv zv (some ["zoom"])).map Prod.fst = ["zoom"] := by
  intro bv zv
  refine ⟨?_, ?_, ?_⟩
  · simp [stDefaultsFiltered]
  · intro ro k
    constructor
    · intro hk
      rw [List.mem_map] at hk
      obtain ⟨kv, hkv, hfst⟩ := hk
      unfold stDefaultsFiltered at hkv
      rw [List.mem_filter] at hkv
      constructor
      · exact hfst ▸ List.mem_map_of_mem Prod.fst hkv.1
      · have := hkv.2
        rw [← hfst]
        simpa [List.elem_iff] using this
    · intro ⟨hk, hro⟩
      rw [List.mem_map] at hk ⊢
      obtain ⟨kv, hkv, hfst⟩ := hk
      refine ⟨kv, ?_, hfst⟩
      unfold stDefaultsFiltered
      rw [List.mem_filter]
      exact ⟨hkv, by simpa [List.elem_iff, hfst] using hro⟩
  · simp [stDefaultsFiltered, stDefaults, List.filter, List.contains]

/-- C10: the key argument is converted with `str()` before being appended
to the normalized script (twice, once after each substitution pass), so the
caller key `None` and the four-character string key `None` produce the same
preimage and therefore the same re-mount digest, for any digest function. -/
theorem C10_none_key_collision :
    ∀ (sha : String → String) (s : String),
      generate_js_hash sha s none = generate_js_hash sha s (some "None") ∧
        standardized_js s none =
          urlsubS (psubS s ++ "None") ++ "None" := fun _ _ => ⟨rfl, rfl⟩

theorem str_data_append (a b : String) : (a ++ b).data = a.data ++ b.data := rfl

/-- C6: a child whose recursive rendering raises `UndefinedError` or
`AttributeError` is silently skipped (the loop continues with the next
index and the accumulated script untouched); a child raising any other
exception aborts the loop and the exception propagates; and whatever
happens, a successful loop result always extends the already accumulated
script, which is therefore never corrupted. -/
theorem C6_child_error_policy :
    (∀ (c : Node) (rest : List Node) (idx : Nat) (b acc : String)
        (mp mp' : List (String × String)) (e : PyErr),
      _generate_leaflet_string c true (b ++ "_" ++ toString idx) mp =
        (.error e, mp') →
      ((e = .undefinedError ∨ e = .attributeError) →
        childLoop (c :: rest) idx b acc mp =
          childLoop rest (idx + 1) b acc mp') ∧
      (∀ msg, e = .other msg →
        childLoop (c :: rest) idx b acc mp = (.error (.other msg), mp'))) ∧
    (∀ (cs : List Node) (idx : Nat) (b acc s : String)
        (mp mp' : List (String × String)),
      childLoop cs idx b acc mp = (.ok s, mp') → acc.data <+: s.data) := by
  constructor
  · intro c rest idx b acc mp mp' e hgen
    constructor
    · intro he
      exact childLoop_cons_skip hgen he
    · intro msg hmsg
      subst hmsg
      exact childLoop_cons_fatal hgen
  · intro cs
    induction cs with
    | nil =>
      intro idx b acc s mp mp' h
      rw [childLoop_nil_eq] at h
      have : acc = s := by
        have := (Prod.mk.injEq _ _ _ _).mp h
        exact Except.ok.inj this.1
      exact this ▸ List.prefix_refl _
    | cons c rest ih =>
      intro idx b acc s mp mp' h
      rcases hgen : _generate_leaflet_string c true (b ++ "_" ++ toString idx) mp
        with ⟨res, mp₂⟩
      cases res with
      | ok childS =>
        rw [childLoop_cons_ok hgen] at h
        have hpre := ih (idx + 1) b (acc ++ "\n" ++ childS) s mp₂ mp' h
        refine List.IsPrefix.trans ?_ hpre
        rw [str_data_append, str_data_append]
        rw [List.append_assoc]
        exact List.prefix_append _ _
      | error e =>
        cases e with
        | undefinedError =>
          rw [childLoop_cons_skip hgen (Or.inl rfl)] at h
          exact ih (idx + 1) b acc s mp₂ mp' h
        | attributeError =>
          rw [childLoop_cons_skip hgen (Or.inr rfl)] at h
          exact ih (idx + 1) b acc s mp₂ mp' h
        | other msg =>
          rw [childLoop_cons_fatal hgen] at h
          exact absurd ((Prod.mk.injEq _ _ _ _).mp h).1 (by simp)

/-- Witness for C6: a child failing with `AttributeError` is skipped with
the accumulated script intact, a child failing with a `ValueError`-like
exception aborts the loop, and a successful loop extends the accumulator. -/
theorem C6_witness :
    (childLoop
        [.elem "x" (fun _ => .error .attributeError)
          (fun _ => .error .attributeError) []] 0 "p" "var A;" [] =
      childLoop [] 1 "p" "var A;" [("x", "p_0")]) ∧
    (childLoop
        [.elem "y" (fun _ => .error (.other "ValueError"))
          (fun _ => .error (.other "ValueError")) []] 0 "p" "var A;" [] =
      (.error (.other "ValueError"), [("y", "p_0")])) ∧
    ("var A;" : String).data <+: ("var A;" : String).data := by
  have hx : renderSelf (fun _ => (.error .attributeError : Except PyErr String))
      (fun _ => .error .attributeError) ("p" ++ "_" ++ toString 0) =
      .error .attributeError := rfl
  have hy : renderSelf
      (fun _ => (.error (.other "ValueError") : Except PyErr String))
      (fun _ => .error (.other "ValueError")) ("p" ++ "_" ++ toString 0) =
      .error (.other "ValueError") := rfl
  have hgx : _generate_leaflet_string
      (.elem "x" (fun _ => .error .attributeError)
        (fun _ => .error .attributeError) []) true
      ("p" ++ "_" ++ toString 0) [] = (.error .attributeError, [("x", "p_0")]) := by
    rw [gen_elem_err hx]
    rfl
  have hgy : _generate_leaflet_string
      (.elem "y" (fun _ => .error (.other "ValueError"))
        (fun _ => .error (.other "ValueError")) []) true
      ("p" ++ "_" ++ toString 0) [] =
      (.error (.other "ValueError"), [("y", "p_0")]) := by
    rw [gen_elem_err hy]
    rfl
  refine ⟨?_, ?_, ?_⟩
  · exact (C6_child_error_policy.1 _ [] 0 "p" "var A;" [] [("x", "p_0")]
      .attributeError hgx).1 (Or.inr rfl)
  · exact (C6_child_error_policy.1 _ [] 0 "p" "var A;" [] [("y", "p_0")]
      (.other "ValueError") hgy).2 "ValueError" rfl
  · exact C6_child_error_policy.2 [] 0 "p" "var A;" "var A;" [] []
      (childLoop_nil_eq 0 "p" "var A;" [])

/-- C2 (code evaluation at the failing input): for a dual-composite node
traversed with `base_id = "map_div"`, the recorded mapping assigns the
composite itself `map_div` but assigns the fixed default `0` to BOTH
sub-maps, because lines 282 and 285 call `_generate_leaflet_string` on
`m.m1` and `m.m2` without forwarding `base_id`.  The first sub-map
therefore does not keep the un-suffixed base id, and the second one's
stable id is not distinct from the first's. -/
theorem C2_code_eval :
    (_generate_leaflet_string
        (.dual "d" (.elem "a" (fun i => .ok ("A:" ++ i)) (fun _ => .ok "") [])
          (.elem "b" (fun i => .ok ("B:" ++ i)) (fun _ => .ok "") [])
          (fun i => .ok ("S:" ++ i))) true "map_div" []).2 =
      [("d", "map_div"), ("a", "0"), ("b", "0")] ∧
    ("0" : String) ≠ "map_div" := by
  have hra : renderSelf (fun i => (.ok ("A:" ++ i) : Except PyErr String))
      (fun _ => .ok "") "0" = .ok ("A:" ++ "0") := rfl
  have hrb : renderSelf (fun i => (.ok ("B:" ++ i) : Except PyErr String))
      (fun _ => .ok "") "0" = .ok ("B:" ++ "0") := rfl
  have ha : _generate_leaflet_string
      (.elem "a" (fun i => .ok ("A:" ++ i)) (fun _ => .ok "") []) true "0"
      (dictAssign [] "d" "map_div") =
      (.ok ("A:" ++ "0"), [("d", "map_div"), ("a", "0")]) := by
    rw [gen_elem_ok hra, if_neg (show ¬ (true = false) by decide),
      childLoop_nil_eq]
    rfl
  have hb : _generate_leaflet_string
      (.elem "b" (fun i => .ok ("B:" ++ i)) (fun _ => .ok "") []) true "0"
      [("d", "map_div"), ("a", "0")] =
      (.ok ("B:" ++ "0"), [("d", "map_div"), ("a", "0"), ("b", "0")]) := by
    rw [gen_elem_ok hrb, if_neg (show ¬ (true = false) by decide),
      childLoop_nil_eq]
    rfl
  have ht : (fun i => (.ok ("S:" ++ i) : Except PyErr String)) "map_div" =
      .ok ("S:" ++ "map_div") := rfl
  constructor
  · rw [gen_dual_true_ok ha hb ht]
  · decide

/-! ## Structural equality up to identifier renaming -/

theorem strReplace_not_occur {s k v : String} (h : ¬ k.data <:+: s.data) :
    strReplace s k v = s := by
  unfold strReplace
  rw [replaceAllL_no_occ (fun hk => h (by rw [hk]; exact List.nil_infix)) h]

theorem substPass_id {maps : List (String × String)} {s : String}
    (h : ∀ kv ∈ maps, ¬ kv.1.data <:+: s.data) : substPass maps s = s := by
  induction maps with
  | nil => rfl
  | cons kv rest ih =>
    have h1 : strReplace s kv.1 kv.2 = s :=
      strReplace_not_occur (h kv (List.mem_cons_self kv rest))
    have hstep : substPass (kv :: rest) s = substPass rest (strReplace s kv.1 kv.2) :=
      rfl
    rw [hstep, h1]
    exact ih (fun kv' hkv' => h kv' (List.mem_cons_of_mem kv hkv'))

mutual
/-- Two trees have the same structure and the same render capabilities but
possibly different (random) identifiers. -/
def SameShape : Node → Node → Prop
  | .elem _ sc1 fb1 cs1, .elem _ sc2 fb2 cs2 =>
      sc1 = sc2 ∧ fb1 = fb2 ∧ SameShapeList cs1 cs2
  | .dual _ a1 a2 sy1, .dual _ b1 b2 sy2 =>
      sy1 = sy2 ∧ SameShape a1 b1 ∧ SameShape a2 b2
  | _, _ => False

def SameShapeList : List Node → List Node → Prop
  | [], [] => True
  | c :: cs, d :: ds => SameShape c d ∧ SameShapeList cs ds
  | _, _ => False
end

/-- Same-shaped trees have traversals that agree on everything except the
original identifiers recorded as mapping keys. -/
theorem sameShape_spec : ∀ n : ℕ,
    (∀ (a b : Node) (nested : Bool) (bs : String), sizeOf a ≤ n →
      SameShape a b →
      (assignedIds a nested bs).map Prod.snd =
          (assignedIds b nested bs).map Prod.snd ∧
        specAssemble a nested bs = specAssemble b nested bs ∧
        rendersOk a nested bs = rendersOk b nested bs) ∧
    (∀ (cs ds : List Node) (idx : Nat) (bs : String), sizeOf cs ≤ n →
      SameShapeList cs ds →
      (assignedIdsChildren cs idx bs).map Prod.snd =
          (assignedIdsChildren ds idx bs).map Prod.snd ∧
        specChildren cs idx bs = specChildren ds idx bs ∧
        rendersOkChildren cs idx bs = rendersOkChildren ds idx bs) := by
  intro n
  induction n with
  | zero =>
    constructor
    · intro a _ _ _ hsz
      exact absurd hsz (by cases a <;> simp)
    · intro cs ds idx bs hsz hsh
      match cs, ds, hsh with
      | [], [], _ => exact ⟨rfl, rfl, rfl⟩
      | c :: cs', d :: ds', _ => exact absurd hsz (by cases c <;> simp)
  | succ n ih =>
    constructor
    · intro a b nested bs hsz hsh
      match a, b, hsh with
      | .elem i1 sc1 fb1 cs1, .elem i2 sc2 fb2 cs2, ⟨hsc, hfb, hcs⟩ =>
        subst hsc
        subst hfb
        have hszc : sizeOf cs1 ≤ n := by
          have : sizeOf cs1 < sizeOf (Node.elem i1 sc1 fb1 cs1) := by
            simp only [Node.elem.sizeOf_spec]
            omega
          omega
        obtain ⟨hA, hS, hR⟩ := ih.2 cs1 cs2 0 bs hszc hcs
        refine ⟨?_, ?_, ?_⟩
        · simp only [assignedIds]
          cases nested <;> simp [hA]
        · simp only [specAssemble, hS]
        · simp only [rendersOk, hR]
      | .dual i1 a1 a2 sy1, .dual i2 b1 b2 sy2, ⟨hsy, h1, h2⟩ =>
        subst hsy
        have hsz1 : sizeOf a1 ≤ n := by
          have : sizeOf a1 < sizeOf (Node.dual i1 a1 a2 sy1) := by
            simp only [Node.dual.sizeOf_spec]
            omega
          omega
        have hsz2 : sizeOf a2 ≤ n := by
          have : sizeOf a2 < sizeOf (Node.dual i1 a1 a2 sy1) := by
            simp only [Node.dual.sizeOf_spec]
            omega
          omega
        obtain ⟨hA1, hS1, hR1⟩ := ih.1 a1 b1 true "0" hsz1 h1
        obtain ⟨hA2, hS2, hR2⟩ := ih.1 a2 b2 true "0" hsz2 h2
        obtain ⟨hA1f, hS1f, hR1f⟩ := ih.1 a1 b1 false "0" hsz1 h1
        refine ⟨?_, ?_, ?_⟩
        · simp only [assignedIds]
          cases nested <;> simp [hA1, hA2, hA1f]
        · simp only [specAssemble]
          cases nested <;> simp [hS1, hS2, hS1f]
        · simp only [rendersOk]
          cases nested <;> simp [hR1, hR2, hR1f]
    · intro cs ds idx bs hsz hsh
      match cs, ds, hsh with
      | [], [], _ => exact ⟨rfl, rfl, rfl⟩
      | c :: cs', d :: ds', ⟨hcd, hrest⟩ =>
        have hszc : sizeOf c ≤ n := by
          have : sizeOf c < sizeOf (c :: cs') := by
            simp only [List.cons.sizeOf_spec]
            omega
          omega
        have hszr : sizeOf cs' ≤ n := by
          have : sizeOf cs' < sizeOf (c :: cs') := by
            simp only [List.cons.sizeOf_spec]
            omega
          omega
        obtain ⟨hA, hS, hR⟩ := ih.1 c d true (bs ++ "_" ++ toString idx) hszc hcd
        obtain ⟨hA', hS', hR'⟩ := ih.2 cs' ds' (idx + 1) bs hszr hrest
        refine ⟨?_, ?_, ?_⟩
        · simp only [assignedIdsChildren]
          simp [hA, hA']
        · simp only [specChildren, hS, hS']
        · simp only [rendersOkChildren, hR, hR']

/-- C3 (counterexample): two invocations on trees of identical structure
and render capabilities that differ only in the library's random
identifiers produce byte-identical scripts, but NOT identical mappings:
the mappings are keyed by the respective invocation's random identifiers,
so the claim's second conjunct fails. -/
theorem C3_counterexample :
    generate_leaflet_string
        (.elem "aaa" (fun i => .ok ("var " ++ i)) (fun _ => .ok "") [])
        true "map_div" =
      generate_leaflet_string
        (.elem "bbb" (fun i => .ok ("var " ++ i)) (fun _ => .ok "") [])
        true "map_div" ∧
    (_generate_leaflet_string
        (.elem "aaa" (fun i => .ok ("var " ++ i)) (fun _ => .ok "") [])
        true "map_div" []).2 ≠
      (_generate_leaflet_string
        (.elem "bbb" (fun i => .ok ("var " ++ i)) (fun _ => .ok "") [])
        true "map_div" []).2 := by
  have hr : renderSelf (fun i => (.ok ("var " ++ i) : Except PyErr String))
      (fun _ => .ok "") "map_div" = .ok ("var " ++ "map_div") := rfl
  have ha : _generate_leaflet_string
      (.elem "aaa" (fun i => .ok ("var " ++ i)) (fun _ => .ok "") [])
      true "map_div" [] =
      (.ok ("var " ++ "map_div"), [("aaa", "map_div")]) := by
    rw [gen_elem_ok hr, if_neg (show ¬ (true = false) by decide),
      childLoop_nil_eq]
    rfl
  have hb : _generate_leaflet_string
      (.elem "bbb" (fun i => .ok ("var " ++ i)) (fun _ => .ok "") [])
      true "map_div" [] =
      (.ok ("var " ++ "map_div"), [("bbb", "map_div")]) := by
    rw [gen_elem_ok hr, if_neg (show ¬ (true = false) by decide),
      childLoop_nil_eq]
    rfl
  constructor
  · have hna : substPass [("aaa", "map_div")] ("var " ++ "map_div") =
        "var " ++ "map_div" := substPass_id (by decide)
    have hnb : substPass [("bbb", "map_div")] ("var " ++ "map_div") =
        "var " ++ "map_div" := substPass_id (by decide)
    simp only [generate_leaflet_string, ha, hb, hna, hnb]
  · rw [ha, hb]
    decide

/-- C3 (amended): for same-shaped trees whose identifiers are distinct and
do not occur textually in the assembled script, the two invocations produce
byte-identical scripts, and mappings whose assigned stable identifiers
agree position by position; the mapping keys are the respective runs'
random identifiers, which is the most that can coincide. -/
theorem C3_amended (m1 m2 : Node) (b : String)
    (hshape : SameShape m1 m2)
    (hok : rendersOk m1 true b = true)
    (hnd1 : ((assignedIds m1 true b).map Prod.fst).Nodup)
    (hnd2 : ((assignedIds m2 true b).map Prod.fst).Nodup)
    (hfresh1 : ∀ kv ∈ assignedIds m1 true b,
      ¬ kv.1.data <:+: (specAssemble m1 true b).data)
    (hfresh2 : ∀ kv ∈ assignedIds m2 true b,
      ¬ kv.1.data <:+: (specAssemble m2 true b).data) :
    generate_leaflet_string m1 true b = generate_leaflet_string m2 true b ∧
      (_generate_leaflet_string m1 true b []).2.map Prod.snd =
        (_generate_leaflet_string m2 true b []).2.map Prod.snd := by
  obtain ⟨hA, hS, hR⟩ := (sameShape_spec (sizeOf m1)).1 m1 m2 true b le_rfl hshape
  have hok2 : rendersOk m2 true b = true := hR ▸ hok
  have h1 := gen_ok_root hok hnd1
  have h2 := gen_ok_root hok2 hnd2
  constructor
  · have e1 : generate_leaflet_string m1 true b =
        .ok (substPass (assignedIds m1 true b) (specAssemble m1 true b)) := by
      simp only [generate_leaflet_string, h1]
    have e2 : generate_leaflet_string m2 true b =
        .ok (substPass (assignedIds m2 true b) (specAssemble m2 true b)) := by
      simp only [generate_leaflet_string, h2]
    rw [e1, e2, substPass_id hfresh1, substPass_id hfresh2, hS]
  · rw [h1, h2]
    exact hA

/-- Witness for C3 (amended) at two single-node trees with random
identifiers `aaa` and `bbb`. -/
theorem C3_witness :
    generate_leaflet_string
        (.elem "aaa" (fun i => .ok ("x " ++ i)) (fun _ => .ok "") [])
        true "map_div" =
      generate_leaflet_string
        (.elem "bbb" (fun i => .ok ("x " ++ i)) (fun _ => .ok "") [])
        true "map_div" ∧
      (_generate_leaflet_string
          (.elem "aaa" (fun i => .ok ("x " ++ i)) (fun _ => .ok "") [])
          true "map_div" []).2.map Prod.snd =
        (_generate_leaflet_string
            (.elem "bbb" (fun i => .ok ("x " ++ i)) (fun _ => .ok "") [])
            true "map_div" []).2.map Prod.snd := by
  apply C3_amended
  · simp [SameShape, SameShapeList]
  · simp [rendersOk, rendersOkChildren, renderSelf, exOk]
  · simp [assignedIds, assignedIdsChildren]
  · simp [assignedIds, assignedIdsChildren]
  · intro kv hkv
    simp only [assignedIds, assignedIdsChildren, if_pos] at hkv
    simp only [List.mem_singleton] at hkv
    subst hkv
    simp only [specAssemble, specChildren, renderSelf, okOr]
    decide
  · intro kv hkv
    simp only [assignedIds, assignedIdsChildren, if_pos] at hkv
    simp only [List.mem_singleton] at hkv
    subst hkv
    simp only [specAssemble, specChildren, renderSelf, okOr]
    decide

/-! ## Newline-joined pre-order snippet lists (for the ordering claim) -/

def prefixNL : List String → String
  | [] => ""
  | x :: rest => "\n" ++ x ++ prefixNL rest

def joinNL : List String → String
  | [] => ""
  | x :: rest => x ++ prefixNL rest

mutual
def dualFree : Node → Bool
  | .elem _ _ _ cs => dualFreeList cs
  | .dual _ _ _ _ => false

def dualFreeList : List Node → Bool
  | [] => true
  | c :: rest => dualFree c && dualFreeList rest
end

mutual
/-- Pre-order list of rendered snippets of a dual-free tree. -/
def preSnips (m : Node) (b : String) : List String :=
  match m with
  | .elem _ sc fb cs => okOr (renderSelf sc fb b) :: preSnipsChildren cs 0 b
  | .dual _ _ _ _ => []

def preSnipsChildren (cs : List Node) (idx : Nat) (b : String) : List String :=
  match cs with
  | [] => []
  | c :: rest =>
    preSnips c (b ++ "_" ++ toString idx) ++ preSnipsChildren rest (idx + 1) b
end

theorem prefixNL_append (A B : List String) :
    prefixNL (A ++ B) = prefixNL A ++ prefixNL B := by
  induction A with
  | nil => simp [prefixNL]
  | cons x A ih => simp [prefixNL, ih, String.append_assoc]

theorem nl_joinNL {S : List String} (hS : S ≠ []) :
    "\n" ++ joinNL S = prefixNL S := by
  match S, hS with
  | x :: L, _ =>
    simp [joinNL, prefixNL, String.append_assoc]

theorem preSnips_ne_nil {m : Node} (h : dualFree m = true) (b : String) :
    preSnips m b ≠ [] := by
  match m with
  | .elem i sc fb cs => simp [preSnips]
  | .dual i m1 m2 sync => simp [dualFree] at h

/-- On dual-free trees the assembled script is exactly the newline-join of
the pre-order snippet list: parents first, siblings in insertion order. -/
theorem specAssemble_flatten : ∀ n : ℕ,
    (∀ (m : Node) (b : String), sizeOf m ≤ n → dualFree m = true →
      specAssemble m true b = joinNL (preSnips m b)) ∧
    (∀ (cs : List Node) (idx : Nat) (b : String), sizeOf cs ≤ n →
      dualFreeList cs = true →
      specChildren cs idx b = prefixNL (preSnipsChildren cs idx b)) := by
  intro n
  induction n with
  | zero =>
    constructor
    · intro m _ hsz
      exact absurd hsz (by cases m <;> simp)
    · intro cs idx b hsz hdf
      match cs with
      | [] => simp [specChildren, preSnipsChildren, prefixNL]
      | c :: rest => exact absurd hsz (by cases c <;> simp)
  | succ n ih =>
    constructor
    · intro m b hsz hdf
      match m with
      | .elem i sc fb cs =>
        have hszc : sizeOf cs ≤ n := by
          have : sizeOf cs < sizeOf (Node.elem i sc fb cs) := by
            simp only [Node.elem.sizeOf_spec]
            omega
          omega
        have hdfc : dualFreeList cs = true := by
          simpa [dualFree] using hdf
        have hsp : specAssemble (.elem i sc fb cs) true b =
            okOr (renderSelf sc fb b) ++ specChildren cs 0 b := by
          simp [specAssemble]
        rw [hsp, ih.2 cs 0 b hszc hdfc]
        simp [preSnips, joinNL]
      | .dual i m1 m2 sync => simp [dualFree] at hdf
    · intro cs idx b hsz hdf
      match cs with
      | [] => simp [specChildren, preSnipsChildren, prefixNL]
      | c :: rest =>
        rw [dualFreeList, Bool.and_eq_true] at hdf
        have hszc : sizeOf c ≤ n := by
          have : sizeOf c < sizeOf (c :: rest) := by
            simp only [List.cons.sizeOf_spec]
            omega
          omega
        have hszr : sizeOf rest ≤ n := by
          have : sizeOf rest < sizeOf (c :: rest) := by
            simp only [List.cons.sizeOf_spec]
            omega
          omega
        simp only [specChildren, preSnipsChildren]
        rw [prefixNL_append, ih.1 c (b ++ "_" ++ toString idx) hszc hdf.1,
          ih.2 rest (idx + 1) b hszr hdf.2,
          ← nl_joinNL (preSnips_ne_nil hdf.1 (b ++ "_" ++ toString idx))]

theorem strReplace_joinNL {k v : String} (hk : k.data ≠ [])
    (hnl : '\n' ∉ k.data) :
    ∀ L : List String, strReplace (joinNL L) k v =
      joinNL (L.map (fun s => strReplace s k v)) := by
  intro L
  induction L with
  | nil =>
    simp only [joinNL, List.map_nil]
    unfold strReplace
    have h0 : splitFirst k.data ("" : String).data = none := rfl
    rw [show ("" : String) = String.mk [] from rfl]
    rw [replaceAllL_of_none h0]
  | cons x rest ih =>
    match rest with
    | [] =>
      simp [joinNL, prefixNL, String.append_empty]
    | y :: rest' =>
      have hdata : (joinNL (x :: y :: rest')).data =
          x.data ++ '\n' :: (joinNL (y :: rest')).data := by
        simp [joinNL, prefixNL, str_data_append, String.append_assoc]
      have hstep : (strReplace (joinNL (x :: y :: rest')) k v).data =
          (strReplace x k v).data ++ '\n' ::
            (strReplace (joinNL (y :: rest')) k v).data := by
        unfold strReplace
        rw [hdata, replaceAllL_append_sep hk hnl]
      apply String.ext
      rw [hstep, ih]
      simp [joinNL, prefixNL, str_data_append, String.append_assoc]

theorem substPass_joinNL {maps : List (String × String)}
    (hids : ∀ kv ∈ maps, kv.1.data ≠ [] ∧ '\n' ∉ kv.1.data) :
    ∀ L : List String,
      substPass maps (joinNL L) = joinNL (L.map (substPass maps)) := by
  induction maps with
  | nil =>
    intro L
    have : L.map (substPass []) = L := by
      apply List.map_id''
      intro s
      rfl
    rw [this]
    rfl
  | cons kv rest ih =>
    intro L
    have h1 := hids kv (List.mem_cons_self kv rest)
    have hstep : substPass (kv :: rest) (joinNL L) =
        substPass rest (strReplace (joinNL L) kv.1 kv.2) := rfl
    rw [hstep, strReplace_joinNL h1.1 h1.2,
      ih (fun kv' hkv' => hids kv' (List.mem_cons_of_mem kv hkv')), List.map_map]
    rfl

/-- C5 (counterexample): for a dual-composite node the components are
emitted as sub-map 1, newline, sub-map 2, and only then the composite's
own sync snippet, with no separating newline.  Thus the parent's snippet
text (`S`) first occurs at position 3 of the output, strictly after its
descendants' snippets (`A` at position 0, `B` at position 2), refuting the
claim that every parent's snippet precedes its descendants'. -/
theorem C5_counterexample :
    generate_leaflet_string
        (.dual "d" (.elem "a" (fun _ => .ok "A") (fun _ => .ok "") [])
          (.elem "b" (fun _ => .ok "B") (fun _ => .ok "") [])
          (fun _ => .ok "S")) true "map_div" =
      .ok ("A" ++ "\n" ++ "B" ++ "S") ∧
    splitFirst ("S" : String).data ("A" ++ "\n" ++ "B" ++ "S" : String).data =
      some (("A" ++ "\n" ++ "B" : String).data, []) ∧
    splitFirst ("A" : String).data ("A" ++ "\n" ++ "B" ++ "S" : String).data =
      some ([], ("\n" ++ "B" ++ "S" : String).data) := by
  have hra : renderSelf (fun _ => (.ok "A" : Except PyErr String))
      (fun _ => .ok "") "0" = .ok "A" := rfl
  have hrb : renderSelf (fun _ => (.ok "B" : Except PyErr String))
      (fun _ => .ok "") "0" = .ok "B" := rfl
  have ha : _generate_leaflet_string
      (.elem "a" (fun _ => .ok "A") (fun _ => .ok "") []) true "0"
      (dictAssign [] "d" "map_div") =
      (.ok "A", [("d", "map_div"), ("a", "0")]) := by
    rw [gen_elem_ok hra, if_neg (show ¬ (true = false) by decide),
      childLoop_nil_eq]
    rfl
  have hb : _generate_leaflet_string
      (.elem "b" (fun _ => .ok "B") (fun _ => .ok "") []) true "0"
      [("d", "map_div"), ("a", "0")] =
      (.ok "B", [("d", "map_div"), ("a", "0"), ("b", "0")]) := by
    rw [gen_elem_ok hrb, if_neg (show ¬ (true = false) by decide),
      childLoop_nil_eq]
    rfl
  have ht : (fun _ => (.ok "S" : Except PyErr String)) "map_div" =
      .ok "S" := rfl
  have hgen : _generate_leaflet_string
      (.dual "d" (.elem "a" (fun _ => .ok "A") (fun _ => .ok "") [])
        (.elem "b" (fun _ => .ok "B") (fun _ => .ok "") [])
        (fun _ => .ok "S")) true "map_div" [] =
      (.ok ("A" ++ "
" ++ "B" ++ "S"),
        [("d", "map_div"), ("a", "0"), ("b", "0")]) :=
    gen_dual_true_ok ha hb ht
  refine ⟨?_, by decide, by decide⟩
  simp only [generate_leaflet_string, hgen]
  rw [substPass_id (by decide)]

/-- C5 (amended): under a fully successful traversal with distinct,
newline-free identifiers, the script assembled by the traversal is
`specAssemble` (an element's snippet precedes its children's scripts,
which appear newline-separated in insertion order; a dual composite's own
sync snippet instead comes after its two sub-scripts), and for dual-free
trees the final output of `generate_leaflet_string` is exactly the
newline-join, in pre-order, of the per-node snippets with the identifier
substitution applied to each. -/
theorem C5_amended (m : Node) (b : String)
    (hok : rendersOk m true b = true)
    (hnd : ((assignedIds m true b).map Prod.fst).Nodup)
    (hids : ∀ kv ∈ assignedIds m true b, kv.1.data ≠ [] ∧ '\n' ∉ kv.1.data) :
    (_generate_leaflet_string m true b []).1 = .ok (specAssemble m true b) ∧
    (dualFree m = true →
      generate_leaflet_string m true b =
        .ok (joinNL ((preSnips m b).map (substPass (assignedIds m true b))))) := by
  have h1 := gen_ok_root hok hnd
  constructor
  · rw [h1]
  · intro hdf
    have hflat := (specAssemble_flatten (sizeOf m)).1 m b le_rfl hdf
    simp only [generate_leaflet_string, h1]
    rw [hflat, substPass_joinNL hids]

/-- Witness for C5 (amended) at a two-node tree (a map with one marker). -/
theorem C5_witness :
    (_generate_leaflet_string
        (.elem "aaa" (fun i => .ok ("P:" ++ i)) (fun _ => .ok "")
          [.elem "ccc" (fun i => .ok ("C:" ++ i)) (fun _ => .ok "") []])
        true "map_div" []).1 =
      .ok (specAssemble
        (.elem "aaa" (fun i => .ok ("P:" ++ i)) (fun _ => .ok "")
          [.elem "ccc" (fun i => .ok ("C:" ++ i)) (fun _ => .ok "") []])
        true "map_div") ∧
    (dualFree
        (.elem "aaa" (fun i => .ok ("P:" ++ i)) (fun _ => .ok "")
          [.elem "ccc" (fun i => .ok ("C:" ++ i)) (fun _ => .ok "") []]) = true →
      generate_leaflet_string
          (.elem "aaa" (fun i => .ok ("P:" ++ i)) (fun _ => .ok "")
            [.elem "ccc" (fun i => .ok ("C:" ++ i)) (fun _ => .ok "") []])
          true "map_div" =
        .ok (joinNL ((preSnips
          (.elem "aaa" (fun i => .ok ("P:" ++ i)) (fun _ => .ok "")
            [.elem "ccc" (fun i => .ok ("C:" ++ i)) (fun _ => .ok "") []])
          "map_div").map (substPass (assignedIds
            (.elem "aaa" (fun i => .ok ("P:" ++ i)) (fun _ => .ok "")
              [.elem "ccc" (fun i => .ok ("C:" ++ i)) (fun _ => .ok "") []])
            true "map_div"))))) := by
  apply C5_amended
  · simp [rendersOk, rendersOkChildren, renderSelf, exOk]
  · simp [assignedIds, assignedIdsChildren]
  · simp only [assignedIds, assignedIdsChildren]
    intro kv hkv
    simp only [if_pos, List.mem_cons, List.append_nil, List.mem_singleton] at hkv
    rcases hkv with h | h
    · subst h
      constructor
      · decide
      · decide
    · rcases h with h | h
      · subst h
        constructor
        · decide
        · decide
      · simp at h

/-- C1 (counterexample): the claim fails when an original identifier
overlaps an assigned stable identifier.  A single node with original id
`map` stabilized with `base_id = "map_div"` yields the mapping
`map → map_div`; the substitution pass rewrites the snippet
`var map_div` to `var map_div_div`, and the returned script still
contains the original identifier `map`. -/
theorem C1_counterexample :
    generate_leaflet_string
        (.elem "map" (fun i => .ok ("var " ++ i)) (fun _ => .ok "") [])
        true "map_div" = .ok "var map_div_div" ∧
    ("map" : String).data <:+: ("var map_div_div" : String).data := by
  have hr : renderSelf (fun i => (.ok ("var " ++ i) : Except PyErr String))
      (fun _ => .ok "") "map_div" = .ok ("var " ++ "map_div") := rfl
  have ha : _generate_leaflet_string
      (.elem "map" (fun i => .ok ("var " ++ i)) (fun _ => .ok "") [])
      true "map_div" [] =
      (.ok ("var " ++ "map_div"), [("map", "map_div")]) := by
    rw [gen_elem_ok hr, if_neg (show ¬ (true = false) by decide),
      childLoop_nil_eq]
    rfl
  constructor
  · simp only [generate_leaflet_string, ha]
    have hstep : substPass [("map", "map_div")] ("var " ++ "map_div") =
        strReplace ("var " ++ "map_div") "map" "map_div" := rfl
    rw [hstep]
    have hsf : splitFirst ("map" : String).data
        ("var " ++ "map_div" : String).data =
        some (("var " : String).data, ("_div" : String).data) := by decide
    have hsf2 : splitFirst ("map" : String).data ("_div" : String).data =
        none := by decide
    unfold strReplace
    rw [replaceAllL_of_some (by decide) hsf, replaceAllL_of_none hsf2]
    rfl
  · decide

theorem substPass_preserve {maps : List (String × String)} {t : List Char}
    (h : ∀ kv ∈ maps, NonInterfering kv.2.data t) :
    ∀ s : String, ¬ t <:+: s.data → ¬ t <:+: (substPass maps s).data := by
  induction maps with
  | nil => exact fun s hs => hs
  | cons kv rest ih =>
    intro s hs
    have hstep : substPass (kv :: rest) s =
        substPass rest (strReplace s kv.1 kv.2) := rfl
    rw [hstep]
    apply ih (fun kv' hkv' => h kv' (List.mem_cons_of_mem kv hkv'))
    exact replaceAllL_preserve (h kv (List.mem_cons_self kv rest)) s.data hs

theorem substPass_kills {maps : List (String × String)}
    (hni : ∀ kv ∈ maps, ∀ kv' ∈ maps, NonInterfering kv'.2.data kv.1.data) :
    ∀ (s : String) (kv : String × String), kv ∈ maps →
      ¬ kv.1.data <:+: (substPass maps s).data := by
  induction maps with
  | nil => exact fun s kv h => absurd h (List.not_mem_nil kv)
  | cons kv0 rest ih =>
    intro s kv hkv
    have hstep : substPass (kv0 :: rest) s =
        substPass rest (strReplace s kv0.1 kv0.2) := rfl
    rw [hstep]
    rcases List.mem_cons.mp hkv with he | hmem
    · have hself : NonInterfering kv0.2.data kv0.1.data :=
        hni kv0 (List.mem_cons_self kv0 rest) kv0 (List.mem_cons_self kv0 rest)
      have hk0 : kv0.1.data ≠ [] := by
        intro hnil
        exact hself.1 (by rw [hnil]; exact List.nil_infix)
      rw [he]
      apply substPass_preserve
        (fun kv' hkv' => hni kv0 (List.mem_cons_self kv0 rest) kv'
          (List.mem_cons_of_mem kv0 hkv'))
      exact replaceAllL_kills hk0 hself s.data
    · exact ih
        (fun a ha a' ha' => hni a (List.mem_cons_of_mem kv0 ha) a'
          (List.mem_cons_of_mem kv0 ha'))
        (strReplace s kv0.1 kv0.2) kv hmem

/-- C1 (amended): under a fully successful traversal, every visited node
gets exactly one entry in the identifier mapping (the mapping's keys are
exactly the pre-order original identifiers, without duplicates, each
recorded before the node's identifier is overwritten), and — provided no
original identifier textually overlaps any assigned stable identifier —
the script returned after the substitution pass contains zero occurrences
of any original identifier. -/
theorem C1_amended (m : Node) (b : String)
    (hok : rendersOk m true b = true)
    (hnd : ((assignedIds m true b).map Prod.fst).Nodup)
    (hni : ∀ kv ∈ assignedIds m true b, ∀ kv' ∈ assignedIds m true b,
      NonInterfering kv'.2.data kv.1.data) :
    ((_generate_leaflet_string m true b []).2.map Prod.fst =
        (assignedIds m true b).map Prod.fst ∧
      ((_generate_leaflet_string m true b []).2.map Prod.fst).Nodup) ∧
    ∃ final, generate_leaflet_string m true b = .ok final ∧
      ∀ kv ∈ assignedIds m true b, ¬ (kv.1.data <:+: final.data) := by
  have h1 := gen_ok_root hok hnd
  constructor
  · rw [h1]
    exact ⟨rfl, hnd⟩
  · refine ⟨substPass (assignedIds m true b) (specAssemble m true b), ?_, ?_⟩
    · simp only [generate_leaflet_string, h1]
    · intro kv hkv
      exact substPass_kills hni (specAssemble m true b) kv hkv

/-- Witness for C1 (amended) at a single node with original identifier
`aaa` stabilized with base `map_div`. -/
theorem C1_witness :
    ((_generate_leaflet_string
        (.elem "aaa" (fun i => .ok ("var " ++ i)) (fun _ => .ok "") [])
        true "map_div" []).2.map Prod.fst =
      (assignedIds
        (.elem "aaa" (fun i => .ok ("var " ++ i)) (fun _ => .ok "") [])
        true "map_div").map Prod.fst ∧
      ((_generate_leaflet_string
          (.elem "aaa" (fun i => .ok ("var " ++ i)) (fun _ => .ok "") [])
          true "map_div" []).2.map Prod.fst).Nodup) ∧
    ∃ final, generate_leaflet_string
        (.elem "aaa" (fun i => .ok ("var " ++ i)) (fun _ => .ok "") [])
        true "map_div" = .ok final ∧
      ∀ kv ∈ assignedIds
          (.elem "aaa" (fun i => .ok ("var " ++ i)) (fun _ => .ok "") [])
          true "map_div",
        ¬ (kv.1.data <:+: final.data) := by
  apply C1_amended
  · simp [rendersOk, rendersOkChildren, renderSelf, exOk]
  · simp [assignedIds, assignedIdsChildren]
  · simp only [assignedIds, assignedIdsChildren]
    intro kv hkv kv' hkv'
    simp only [if_pos, List.mem_singleton] at hkv hkv'
    subst hkv
    subst hkv'
    decide

/-- C4 (counterexample): the digest does NOT always change when the key
argument changes: the distinct key arguments `None` (Python `None`) and
the string `"None"` produce the same normalized preimage — `str(key)` is
appended in both cases — and hence the same digest for any digest
function. -/
theorem C4_counterexample :
    standardized_js "var x" none = standardized_js "var x" (some "None") ∧
      (none : Option String) ≠ some "None" ∧
      generate_js_hash (fun s => s) "var x" none =
        generate_js_hash (fun s => s) "var x" (some "None") :=
  ⟨rfl, by decide, rfl⟩

theorem urlChar_ne_underscore {c : Char} (h : isUrlChar c = true) : c ≠ '_' := by
  intro hc
  subst hc
  simp [isUrlChar, isIdChar] at h

theorem idChar_valid_of_all {r : String} (h : r.data.all isIdChar = true) :
    ∀ c ∈ r.data, isIdChar c = true := fun c hc => List.all_eq_true.mp h c hc

/-- C4 (amended): the digest is invariant under replacing a random
identifier-suffix run (after an underscore) or a random
Google-Earth-Engine tile segment (in an interference-free context) by any
other valid run, for every digest function; and, holding the script fixed,
the normalized preimage changes whenever the key's string form changes to
a different string of the same length — distinct key arguments with the
same string form (such as `None` and `"None"`) collide. -/
theorem C4_amended (sha : String → String) :
    (∀ (ctx1 ctx2 r r' : String) (key : Option String),
      r.data ≠ [] → r'.data ≠ [] →
      r.data.all isIdChar = true → r'.data.all isIdChar = true →
      generate_js_hash sha (ctx1 ++ "_" ++ r ++ ctx2) key =
        generate_js_hash sha (ctx1 ++ "_" ++ r' ++ ctx2) key) ∧
    (∀ (ctx1 ctx2 r r' : String) (key : Option String),
      r.data ≠ [] → r'.data ≠ [] →
      r.data.all isUrlChar = true → r'.data.all isUrlChar = true →
      NoStripTail ctx1.data → NoOpenUrl (psub ctx1.data) →
      generate_js_hash sha (ctx1 ++ "maps/" ++ r ++ "/" ++ ctx2) key =
        generate_js_hash sha (ctx1 ++ "maps/" ++ r' ++ "/" ++ ctx2) key) ∧
    (∀ (s : String) (k1 k2 : Option String),
      strOfKey k1 ≠ strOfKey k2 →
      (strOfKey k1).data.length = (strOfKey k2).data.length →
      standardized_js s k1 ≠ standardized_js s k2) := by
  refine ⟨?_, ?_, ?_⟩
  · intro ctx1 ctx2 r r' key hr hr' hra hra'
    unfold generate_js_hash
    congr 1
    unfold standardized_js
    have hpsub : psubS (ctx1 ++ "_" ++ r ++ ctx2) =
        psubS (ctx1 ++ "_" ++ r' ++ ctx2) := by
      apply String.ext
      show psub (ctx1 ++ "_" ++ r ++ ctx2).data =
        psub (ctx1 ++ "_" ++ r' ++ ctx2).data
      have hd : ∀ rr : String, (ctx1 ++ "_" ++ rr ++ ctx2).data =
          ctx1.data ++ '_' :: (rr.data ++ ctx2.data) := by
        intro rr
        simp [str_data_append, List.append_assoc]
      rw [hd r, hd r']
      exact psub_congr hr hr' hra hra' ctx1.data.length ctx1.data ctx2.data
        le_rfl
    rw [hpsub]
  · intro ctx1 ctx2 r r' key hr hr' hra hra' hnst hnou
    unfold generate_js_hash
    congr 1
    unfold standardized_js
    have hnound : ∀ rr : String, rr.data.all isUrlChar = true →
        ∀ c ∈ mapsLit ++ rr.data ++ ['/'], c ≠ '_' := by
      intro rr hall c hc
      rcases List.mem_append.mp hc with hc1 | hc2
      · rcases List.mem_append.mp hc1 with hcm | hcr
        · simp only [mapsLit, List.mem_cons, List.not_mem_nil, or_false] at hcm
          rcases hcm with h | h | h | h | h <;> subst h <;> decide
        · exact urlChar_ne_underscore (List.all_eq_true.mp hall c hcr)
      · simp only [List.mem_singleton] at hc2
        subst hc2
        decide
    have hpsub : ∀ rr : String, rr.data ≠ [] → rr.data.all isUrlChar = true →
        psub (ctx1 ++ "maps/" ++ rr ++ "/" ++ ctx2).data =
          psub ctx1.data ++ (mapsLit ++ (rr.data ++ '/' :: psub ctx2.data)) := by
      intro rr hne hall
      have hd : (ctx1 ++ "maps/" ++ rr ++ "/" ++ ctx2).data =
          ctx1.data ++ ((mapsLit ++ rr.data ++ ['/']) ++ ctx2.data) := by
        simp [str_data_append, List.append_assoc, mapsLit]
      rw [hd, psub_append_safe hnst,
        psub_no_underscore (hnound rr hall) ctx2.data]
      simp [List.append_assoc]
    apply String.ext
    show urlsub ((psubS (ctx1 ++ "maps/" ++ r ++ "/" ++ ctx2)).data ++
        (strOfKey key).data) ++ (strOfKey key).data =
      urlsub ((psubS (ctx1 ++ "maps/" ++ r' ++ "/" ++ ctx2)).data ++
        (strOfKey key).data) ++ (strOfKey key).data
    congr 1
    show urlsub (psub (ctx1 ++ "maps/" ++ r ++ "/" ++ ctx2).data ++
        (strOfKey key).data) =
      urlsub (psub (ctx1 ++ "maps/" ++ r' ++ "/" ++ ctx2).data ++
        (strOfKey key).data)
    rw [hpsub r hr hra, hpsub r' hr' hra']
    have hshape : ∀ rr : String,
        (psub ctx1.data ++ (mapsLit ++ (rr.data ++ '/' :: psub ctx2.data))) ++
            (strOfKey key).data =
          psub ctx1.data ++ (mapsLit ++ (rr.data ++ '/' ::
            (psub ctx2.data ++ (strOfKey key).data))) := by
      intro rr
      simp [List.append_assoc]
    rw [hshape r, hshape r']
    exact urlsub_congr hr hr' hra hra' (psub ctx1.data).length (psub ctx1.data)
      (psub ctx2.data ++ (strOfKey key).data) le_rfl hnou
  · intro s k1 k2 hne hlen hcontra
    apply hne
    have hd := congrArg String.data hcontra
    have hsplit : (urlsubS (psubS s ++ strOfKey k1)).data ++
        (strOfKey k1).data = (urlsubS (psubS s ++ strOfKey k2)).data ++
        (strOfKey k2).data := by
      exact hd
    have := List.append_inj' hsplit hlen
    apply String.ext
    exact this.2

/-- Witness for C4 (amended): two scripts differing in a marker identifier
suffix hash identically, two scripts differing in a Google-Earth-Engine
tile segment hash identically, and distinct same-length keys give distinct
preimages. -/
theorem C4_witness :
    (generate_js_hash (fun s => s)
        ("var marker" ++ "_" ++ "5f9d46" ++ " = x;") none =
      generate_js_hash (fun s => s)
        ("var marker" ++ "_" ++ "0a1b2c" ++ " = x;") none) ∧
    (generate_js_hash (fun s => s)
        ("u(" ++ "maps/" ++ "abc-123" ++ "/" ++ "t)") none =
      generate_js_hash (fun s => s)
        ("u(" ++ "maps/" ++ "zz9" ++ "/" ++ "t)") none) ∧
    standardized_js "x" (some "ab") ≠ standardized_js "x" (some "cd") := by
  have hpu : psub ("u(" : String).data = ("u(" : String).data := by
    have h := psub_no_underscore (g := ("u(" : String).data) (by decide) []
    simpa [psub_nil] using h
  refine ⟨?_, ?_, ?_⟩
  · exact (C4_amended (fun s => s)).1 "var marker" " = x;" "5f9d46" "0a1b2c"
      none (by decide) (by decide) (by decide) (by decide)
  · exact (C4_amended (fun s => s)).2.1 "u(" "t)" "abc-123" "zz9" none
      (by decide) (by decide) (by decide) (by decide) (by decide)
      (by rw [hpu]; decide)
  · exact (C4_amended (fun s => s)).2.2 "x" (some "ab") (some "cd")
      (by decide) (by decide)
